import Mathlib

/-!
# Verification of the kv_parse key-value scanner

Shallow embedding of the C sources `kv_parse.c` (stream engine over a
`FILE *`) and `kv_parse_buffer.c` (buffer engine over a null-terminated
`char *`), together with the `[section]` extraction functions
`kv_parse_check_section` / `kv_parse_buffer_check_section` and the
caller-side scanning loop `kv_parse_buffer` from `test.c`.

Modelling conventions:
* A C string (the source text, a key) is a `List Nat` of its bytes; the
  terminating NUL is the end of the list.  An embedded `0` element models an
  embedded NUL byte.
* The caller's destination buffer (`char value[capacity]`) is a `List Nat`
  whose length is the capacity; writes and reads go through `bufWrite` /
  `bufRead`, which keep an out-of-bounds flag: accessing an index outside
  `0 .. capacity-1` sets the flag (the C program would touch foreign
  memory there).  Results of the extraction functions are tuples
  `(length, buffer contents, oob flag)`.
* `size_t` arithmetic: the loop bounds `i < (value_max - 1)` are computed
  in `size_t`, so `value_max = 0` wraps to `2^64 - 1`; `sizeSub1` models
  this.
* The stream engine's `FILE *` is modelled by the list of bytes still
  ahead of the cursor.  `getc` yields the head byte or `-1` (EOF) at the
  end; storing the result in a C `char` variable (as `kv_parse.c` does in
  `next_line`, `check_key` and `get_value`) is modelled by `toChar`,
  which maps bytes `128..255` to negative values — in particular byte
  `255` becomes `-1`, indistinguishable from EOF, exactly as in the C.
  `fseek`/`ftell` restoration is modelled by returning the saved suffix.
* The compile-time feature flags `KV_PARSE_WHITESPACE_SKIP` and
  `KV_PARSE_QUOTED_STRINGS` (respectively their `..._DISABLE_...`
  negations in the second source variant) become the boolean parameters
  `ws` and `qt`: the source bodies are identical in both variants apart
  from the polarity of the guards.
-/

/-- Space or tab, the bytes skipped by the whitespace-skip feature. -/
def isWs (b : Nat) : Bool := b == 32 || b == 9

/-- End-of-line test of the copy loops: NUL, `'\r'` or `'\n'`. -/
def isEol (b : Nat) : Bool := b == 0 || b == 13 || b == 10

/-- The value stored when `getc`'s result is assigned to a C `char`
variable: bytes `0..127` keep their value, bytes `128..255` become
negative (two's complement); EOF (`-1`) is unrepresentable apart,
coinciding with byte `255`. -/
def toChar (b : Nat) : Int := if b < 128 then (b : Int) else (b : Int) - 256

/-- `value_max - 1` computed in `size_t`: wraps to `2^64 - 1` at zero. -/
def sizeSub1 (n : Nat) : Nat := (n + (2 ^ 64 - 1)) % 2 ^ 64

/-- Write `v` at index `i` of the destination buffer; an index outside
the buffer raises the out-of-bounds flag and leaves memory unchanged. -/
def bufWrite (buf : List Nat) (i : Int) (v : Nat) : List Nat × Bool :=
  if 0 ≤ i ∧ i.toNat < buf.length then (buf.set i.toNat v, false) else (buf, true)

/-- Read index `i` of the destination buffer; an index outside the buffer
raises the out-of-bounds flag (the value read is then arbitrary; the
model returns 0). -/
def bufRead (buf : List Nat) (i : Int) : Nat × Bool :=
  if 0 ≤ i ∧ i.toNat < buf.length then (buf.getD i.toNat 0, false) else (0, true)

/-- The C string readable from a destination buffer: its bytes up to the
first NUL. -/
def cstr (buf : List Nat) : List Nat := buf.takeWhile (· ≠ 0)

/-- Strip trailing space/tab bytes (the effect of the trim loops). -/
def rtrim (l : List Nat) : List Nat := (l.reverse.dropWhile isWs).reverse

/-! ## Buffer engine (`kv_parse_buffer.c`) -/

/-- The scan loop of `kv_parse_buffer_next_line` after the first
`ch = *str; str++`: `ch` is the byte just consumed, the list is what the
pointer `str` now designates. -/
def bufNextLineLoop (ch : Nat) : List Nat → Option (List Nat)
  | [] => none
  | b :: bs =>
    if ch = 0 then none
    else if ch = 10 then (if b = 0 then none else some (b :: bs))
    else bufNextLineLoop b bs

/-- `kv_parse_buffer_next_line`: returns the suffix starting at the next
line, `none` when the input is exhausted (a trailing `'\n'` with nothing
after it counts as exhausted). -/
def bufNextLine (s : List Nat) (lineCount : Nat) : Option (List Nat) :=
  if lineCount = 0 then some s
  else bufNextLineLoop (s.headD 0) s.tail

/-- The key-comparison loop of `check_key` (both engines): consume the
source while bytes match the key; stop without failing when either the
source or the key runs out. -/
def keyCmp : List Nat → List Nat → Option (List Nat)
  | s, [] => some s
  | [], _ :: _ => some []
  | a :: s, k :: ks => if a = k then keyCmp s ks else none

/-- `kv_parse_buffer_check_key` (`ws` = whitespace-skip flag): pointer
to the byte after the `=`/`:` delimiter on success, `NULL` otherwise. -/
def bufCheckKey (ws : Bool) (s key : List Nat) : Option (List Nat) :=
  let s1 := if ws then s.dropWhile isWs else s
  match keyCmp s1 key with
  | none => none
  | some s2 =>
    let s3 := if ws then s2.dropWhile isWs else s2
    if s3.headD 0 = 61 ∨ s3.headD 0 = 58 then some s3.tail else none

/-- The trailing-whitespace trim loop shared by `get_value` (under the
whitespace-skip flag) and `check_section`:
`while (i > 0 && (value[i-1]==' '||value[i-1]=='\t')) { i--; value[i] = 0; }`.
Returns the new `i`, the buffer, and the accumulated oob flag. -/
def trimTail : Nat → List Nat → Bool → Nat × List Nat × Bool
  | 0, buf, oob => (0, buf, oob)
  | i + 1, buf, oob =>
    let r := bufRead buf i
    if isWs r.1 then
      let w := bufWrite buf i 0
      trimTail i w.1 (oob || r.2 || w.2)
    else (i + 1, buf, oob || r.2)

/-- The copy loop of `kv_parse_buffer_get_value`
(`for (int i = 0; i < (value_max - 1); str++) …`).
State: remaining source bytes, `i`, `quote`, `prev` (both `0` when the
quoted-strings flag `qt` is off or nothing is pending), destination
buffer, oob flag.  `vmax` is the untouched `value_max`. -/
def bufGetValueLoop (ws qt : Bool) (vmax : Nat) :
    List Nat → Nat → Nat → Nat → List Nat → Bool → Nat × List Nat × Bool
  | [], i, _quote, _prev, buf, oob =>
    if i < sizeSub1 vmax then
      -- *str == '\0' : end of line
      let w := bufWrite buf i 0
      if ws then trimTail i w.1 (oob || w.2) else (i, w.1, oob || w.2)
    else
      -- value too large for the buffer: value[0] = '\0'; return 0
      let w := bufWrite buf 0 0
      (0, w.1, oob || w.2)
  | b :: rest, i, quote, prev, buf, oob =>
    if i < sizeSub1 vmax then
      if isEol b then
        let w := bufWrite buf i 0
        if ws then trimTail i w.1 (oob || w.2) else (i, w.1, oob || w.2)
      else if qt && quote == 0 && (b == 39 || b == 34) then
        -- start of quoted string
        bufGetValueLoop ws qt vmax rest i b prev buf oob
      else if qt && quote != 0 && prev != 92 && b == quote then
        -- end of quoted string
        let w := bufWrite buf i 0
        (i, w.1, oob || w.2)
      else if qt && quote != 0 && prev == 92 && b == quote then
        -- escaped quote: overwrite the backslash
        let w := bufWrite buf ((i : Int) - 1) b
        bufGetValueLoop ws qt vmax rest i quote prev w.1 (oob || w.2)
      else
        let prev' := if qt then b else prev
        let w := bufWrite buf i b
        bufGetValueLoop ws qt vmax rest (i + 1) quote prev' w.1 (oob || w.2)
    else
      let w := bufWrite buf 0 0
      (0, w.1, oob || w.2)

/-- `kv_parse_buffer_get_value`: extract the value starting at `s` into a
destination of capacity `value.length`, returning
`(length, destination contents, oob flag)`. -/
def bufGetValue (ws qt : Bool) (s : List Nat) (valueMax : Nat) (value : List Nat) :
    Nat × List Nat × Bool :=
  let s1 := if ws then s.dropWhile isWs else s
  bufGetValueLoop ws qt valueMax s1 0 0 0 value false

/-- The closing-bracket test of `check_section` after terminating and
trimming: read the last interior byte (index `i - 1`, which is `-1` when
the interior is empty), require `']'`, and drop it on success. -/
def bracketCheck (t : Nat × List Nat × Bool) : Nat × List Nat × Bool :=
  let r := bufRead t.2.1 ((t.1 : Int) - 1)
  if r.1 ≠ 93 then
    let w2 := bufWrite t.2.1 0 0
    (0, w2.1, t.2.2 || r.2 || w2.2)
  else
    let w2 := bufWrite t.2.1 ((t.1 : Int) - 1) 0
    (t.1 - 1, w2.1, t.2.2 || r.2 || w2.2)

/-- The end-of-line exit of the `check_section` copy loop: terminate,
trim (unconditionally — this trim is not feature-gated in the source),
then require a closing bracket. -/
def sectionEolExit (i : Nat) (buf : List Nat) (oob : Bool) : Nat × List Nat × Bool :=
  let w := bufWrite buf i 0
  bracketCheck (trimTail i w.1 (oob || w.2))

/-- The copy loop of `kv_parse_buffer_check_section`
(`for (int i = 0; i < (section_max - 1); str++) …`). -/
def bufCheckSectionLoop (smax : Nat) :
    List Nat → Nat → List Nat → Bool → Nat × List Nat × Bool
  | [], i, buf, oob =>
    if i < sizeSub1 smax then sectionEolExit i buf oob
    else
      -- section too large for the buffer
      let w := bufWrite buf 0 0
      (0, w.1, oob || w.2)
  | b :: rest, i, buf, oob =>
    if i < sizeSub1 smax then
      if isEol b then sectionEolExit i buf oob
      else
        let w := bufWrite buf i b
        bufCheckSectionLoop smax rest (i + 1) w.1 (oob || w.2)
    else
      let w := bufWrite buf 0 0
      (0, w.1, oob || w.2)

/-- `kv_parse_buffer_check_section`: extract `[name]` from the line start
`s`; when the first byte is not `'['` it returns 0 without touching the
destination. -/
def bufCheckSection (s : List Nat) (sectionMax : Nat) (sect : List Nat) :
    Nat × List Nat × Bool :=
  if s.headD 0 ≠ 91 then (0, sect, false)
  else bufCheckSectionLoop sectionMax s.tail 0 sect false

/-- The caller-side scanning loop `kv_parse_buffer` of `test.c`, with a
fuel argument bounding the number of line advances (each advance past
line 0 strictly shrinks the suffix, so `s.length + 2` fuel suffices). -/
def kvParseBufferAux (ws qt : Bool) (key : List Nat) (vmax : Nat) (value : List Nat) :
    Nat → List Nat → Nat → Nat × List Nat × Bool
  | 0, _, _ => (0, value, false)
  | fuel + 1, s, line =>
    match bufNextLine s line with
    | none => (0, value, false)
    | some t =>
      match bufCheckKey ws t key with
      | some v => bufGetValue ws qt v vmax value
      | none => kvParseBufferAux ws qt key vmax value fuel t (line + 1)

/-- `kv_parse_buffer` (test.c): loop over lines, return the value of the
first line whose key matches. -/
def kvParseBuffer (ws qt : Bool) (s key : List Nat) (vmax : Nat) (value : List Nat) :
    Nat × List Nat × Bool :=
  kvParseBufferAux ws qt key vmax value (s.length + 2) s 0

/-! ## Stream engine (`kv_parse.c`)

The `FILE *` is the list of bytes still ahead of the cursor; `getc` into a
`char ch` variable yields `toChar` of the head byte, or `-1` at the end of
the list (EOF).  Failure paths `fseek` back to the saved position, which
the model expresses by returning the saved suffix itself. -/

/-- `getc` stored into a `char` variable: head byte as a signed char,
`-1` at end of input. -/
def sGetc : List Nat → Int
  | [] => -1
  | b :: _ => toChar b

/-- Truncation of an `int` expression assigned to a `char` of the
destination buffer, as a byte value. -/
def chByte (c : Int) : Nat := (c % 256).toNat

/-- The scan loop of `kv_parse_next_line`: `ch` is the `char` just read,
the list is what remains ahead of the cursor. -/
def sNextLineLoop (ch : Int) : List Nat → Option (List Nat)
  | [] => if ch = 10 then (if sGetc [] = -1 then none else some []) else none
  | b :: bs =>
    if ch = -1 then none
    else if ch = 10 then
      (if sGetc (b :: bs) = -1 then none else some (b :: bs))
    else sNextLineLoop (toChar b) bs

/-- `kv_parse_next_line`: `some` of the suffix at which the stream is left
(the byte read after `'\n'` is pushed back with `ungetc`), `none` for
`false` (end of file before or right after the terminator). -/
def sNextLine (s : List Nat) (lineCount : Nat) : Option (List Nat) :=
  if lineCount = 0 then some s
  else sNextLineLoop (sGetc s) s.tail

/-- The whitespace-skip loops of the stream engine
(`while (ch == ' ' || ch == '\t') ch = getc(file);`): returns the final
`ch` and the remaining suffix.  (When the input runs out inside the loop
the next `getc` yields `-1`, which stops it at once.) -/
def sSkipWs (ch : Int) : List Nat → Int × List Nat
  | [] => if ch = 32 ∨ ch = 9 then (-1, []) else (ch, [])
  | b :: bs => if ch = 32 ∨ ch = 9 then sSkipWs (toChar b) bs else (ch, b :: bs)

/-- The key-comparison loop of `kv_parse_check_key`
(`for (int i = 0; ch != EOF && key[i] != '\0'; i++, ch = getc(file)) …`):
`none` is a mismatch (with `fseek` back, handled by the caller), `some`
returns the `ch` in hand and the remaining suffix. -/
def sMatchKey : Int → List Nat → List Nat → Option (Int × List Nat)
  | ch, s, [] => some (ch, s)
  | ch, s, k :: ks =>
    if ch = -1 then some (ch, s)
    else if ch ≠ toChar k then none
    else
      match s with
      | [] => sMatchKey (sGetc []) [] ks
      | _ :: bs => sMatchKey (sGetc s) bs ks

/-- `kv_parse_check_key`: `some` of the suffix just after the delimiter on
success; `none` models `fseek(file, start_of_line, SEEK_SET); return false`
(the cursor is back at `s`). -/
def sCheckKey (ws : Bool) (s key : List Nat) : Option (List Nat) :=
  let c0 := (sGetc s, s.tail)
  let c1 := if ws then sSkipWs c0.1 c0.2 else c0
  match sMatchKey c1.1 c1.2 key with
  | none => none
  | some c2 =>
    let c3 := if ws then sSkipWs c2.1 c2.2 else c2
    if c3.1 = 61 ∨ c3.1 = 58 then some c3.2 else none

/-- The end-of-line exit of the value-copy loop (both engines): write the
terminator at `i` and trim when the whitespace-skip flag is on.  The
stream variant also does `fseek(file, start_of_value, SEEK_SET)` here,
which the caller of the loop accounts for. -/
def gvEolExit (ws : Bool) (i : Nat) (buf : List Nat) (oob : Bool) : Nat × List Nat × Bool :=
  let w := bufWrite buf i 0
  if ws then trimTail i w.1 (oob || w.2) else (i, w.1, oob || w.2)

/-- The capacity-exhausted exit of the copy loops:
`value[0] = '\0'; return 0;`. -/
def gvCapExit (buf : List Nat) (oob : Bool) : Nat × List Nat × Bool :=
  let w := bufWrite buf 0 0
  (0, w.1, oob || w.2)

/-- The value-copy loop of `kv_parse_get_value` once `getc` has hit EOF
(`ch == EOF` stays true from then on): the next guard check either ends
the line or reports the capacity failure. -/
def sGetValueFin (ws : Bool) (vmax : Nat) (i : Nat) (buf : List Nat) (oob : Bool) :
    Nat × List Nat × Bool :=
  if i < sizeSub1 vmax then gvEolExit ws i buf oob else gvCapExit buf oob

/-- The copy loop of `kv_parse_get_value`; same state as the buffer
variant but `ch`, `quote` and `prev` live in `Int` (`quote`/`prev` are
initialised to `EOF = -1`).  `ch` is the `char` in hand; the list is what
is still ahead of the cursor, so the next `ch = getc(file)` is `toChar`
of its head, or EOF (`sGetValueFin`) when it is empty. -/
def sGetValueLoop (ws qt : Bool) (vmax : Nat) :
    Int → List Nat → Nat → Int → Int → List Nat → Bool → Nat × List Nat × Bool
  | ch, [], i, qS, pS, buf, oob =>
    if i < sizeSub1 vmax then
      if ch = -1 ∨ ch = 13 ∨ ch = 10 then gvEolExit ws i buf oob
      else if qt && qS == -1 && (ch == 39 || ch == 34) then
        sGetValueFin ws vmax i buf oob
      else if qt && qS != -1 && pS != 92 && ch == qS then
        let w := bufWrite buf i 0
        (i, w.1, oob || w.2)
      else if qt && qS != -1 && pS == 92 && ch == qS then
        let w := bufWrite buf ((i : Int) - 1) (chByte ch)
        sGetValueFin ws vmax i w.1 (oob || w.2)
      else
        let w := bufWrite buf i (chByte ch)
        sGetValueFin ws vmax (i + 1) w.1 (oob || w.2)
    else gvCapExit buf oob
  | ch, b :: bs, i, qS, pS, buf, oob =>
    if i < sizeSub1 vmax then
      if ch = -1 ∨ ch = 13 ∨ ch = 10 then gvEolExit ws i buf oob
      else if qt && qS == -1 && (ch == 39 || ch == 34) then
        sGetValueLoop ws qt vmax (toChar b) bs i ch pS buf oob
      else if qt && qS != -1 && pS != 92 && ch == qS then
        let w := bufWrite buf i 0
        (i, w.1, oob || w.2)
      else if qt && qS != -1 && pS == 92 && ch == qS then
        let w := bufWrite buf ((i : Int) - 1) (chByte ch)
        sGetValueLoop ws qt vmax (toChar b) bs i qS pS w.1 (oob || w.2)
      else
        let prev' := if qt then ch else pS
        let w := bufWrite buf i (chByte ch)
        sGetValueLoop ws qt vmax (toChar b) bs (i + 1) qS prev' w.1 (oob || w.2)
    else gvCapExit buf oob

/-- `kv_parse_get_value`: result and destination contents; every exit
path performs `fseek(file, start_of_value, SEEK_SET)`, so the final
cursor is the input suffix `s` itself, returned as the last component. -/
def sGetValue (ws qt : Bool) (s : List Nat) (valueMax : Nat) (value : List Nat) :
    Nat × List Nat × Bool × List Nat :=
  let c0 := (sGetc s, s.tail)
  let c1 := if ws then sSkipWs c0.1 c0.2 else c0
  let r := sGetValueLoop ws qt valueMax c1.1 c1.2 0 (-1) (-1) value false
  (r.1, r.2.1, r.2.2, s)

/-- `getc` stored into an `int` variable (used by `kv_parse_check_section`):
the raw byte, or `-1` at end of input. -/
def sGetcInt : List Nat → Int
  | [] => -1
  | b :: _ => (b : Int)

/-- The `check_section` copy loop of the stream engine once `getc` has
hit EOF: the next guard check either runs the end-of-line exit or
reports the capacity failure. -/
def sSectFin (smax : Nat) (i : Nat) (buf : List Nat) (oob : Bool) : Nat × List Nat × Bool :=
  if i < sizeSub1 smax then sectionEolExit i buf oob else gvCapExit buf oob

/-- The copy loop of `kv_parse_check_section`; here `ch` is an `int`, so
bytes keep their full value and only true end-of-input is `-1`. -/
def sCheckSectionLoop (smax : Nat) :
    Int → List Nat → Nat → List Nat → Bool → Nat × List Nat × Bool
  | ch, [], i, buf, oob =>
    if i < sizeSub1 smax then
      if ch = -1 ∨ ch = 13 ∨ ch = 10 then sectionEolExit i buf oob
      else
        let w := bufWrite buf i (chByte ch)
        sSectFin smax (i + 1) w.1 (oob || w.2)
    else gvCapExit buf oob
  | ch, b :: bs, i, buf, oob =>
    if i < sizeSub1 smax then
      if ch = -1 ∨ ch = 13 ∨ ch = 10 then sectionEolExit i buf oob
      else
        let w := bufWrite buf i (chByte ch)
        sCheckSectionLoop smax (b : Int) bs (i + 1) w.1 (oob || w.2)
    else gvCapExit buf oob

/-- `kv_parse_check_section`: every exit path (success included) performs
`fseek(file, start_of_line, SEEK_SET)`, so the final cursor is the input
suffix `s`, returned as the last component. -/
def sCheckSection (s : List Nat) (sectionMax : Nat) (sect : List Nat) :
    Nat × List Nat × Bool × List Nat :=
  if sGetcInt s ≠ 91 then (0, sect, false, s)
  else
    let r := sCheckSectionLoop sectionMax (sGetcInt s.tail) s.tail.tail 0 sect false
    (r.1, r.2.1, r.2.2, s)

/-! ## Reference recursions for the value-copy loop

`copyCount` counts the iterations of the copy loop that store a byte
(`value[i++] = …`), i.e. the space the loop needs ahead of the
terminator; `valAcc` accumulates the stored bytes themselves (the escape
branch overwrites the last stored byte) and reports whether the value was
closed by a quote (no trailing-whitespace trim in that case).  Both
follow the branch structure of `bufGetValueLoop` literally, with the
destination indexing abstracted away. -/

/-- Number of bytes the value-copy loop stores before it terminates,
independent of the destination capacity. -/
def copyCount (qt : Bool) : List Nat → Nat → Nat → Nat
  | [], _, _ => 0
  | b :: rest, quote, prev =>
    if isEol b then 0
    else if qt && quote == 0 && (b == 39 || b == 34) then copyCount qt rest b prev
    else if qt && quote != 0 && prev != 92 && b == quote then 0
    else if qt && quote != 0 && prev == 92 && b == quote then copyCount qt rest quote prev
    else 1 + copyCount qt rest quote (if qt then b else prev)

/-- The bytes the value-copy loop stores (second component: `true` when
the value was terminated by a closing quote rather than end of line). -/
def valAcc (qt : Bool) : List Nat → Nat → Nat → List Nat → List Nat × Bool
  | [], _, _, acc => (acc, false)
  | b :: rest, quote, prev, acc =>
    if isEol b then (acc, false)
    else if qt && quote == 0 && (b == 39 || b == 34) then valAcc qt rest b prev acc
    else if qt && quote != 0 && prev != 92 && b == quote then (acc, true)
    else if qt && quote != 0 && prev == 92 && b == quote then
      valAcc qt rest quote prev (acc.dropLast ++ [b])
    else valAcc qt rest quote (if qt then b else prev) (acc ++ [b])

/-- The value `get_value` delivers when the capacity suffices: the stored
bytes, right-trimmed when the whitespace-skip flag is on and the value
was not closed by a quote. -/
def valFinal (ws qt : Bool) (s : List Nat) : List Nat :=
  let s1 := if ws then s.dropWhile isWs else s
  let va := valAcc qt s1 0 0 []
  if va.2 || !ws then va.1 else rtrim va.1

/-- A byte list that a C string can faithfully carry to both engines:
no NUL and no `0xFF` (the stream engine stores `getc` results in a
`char`, where byte `0xFF` collides with EOF). -/
def cleanBytes (s : List Nat) : Prop := ∀ b ∈ s, 0 < b ∧ b < 255

/-- Relation between the stream loop's `int quote` (initial `EOF`) and
the buffer loop's `int quote` (initial `'\0'`). -/
def quoteRel (qS : Int) (qB : Nat) : Prop :=
  (qS = -1 ∧ qB = 0) ∨ (qS = (qB : Int) ∧ (qB = 34 ∨ qB = 39))

/-- Relation between the stream loop's `int prev` (initial `EOF`) and
the buffer loop's `int prev` (initial `'\0'`). -/
def prevRel (pS : Int) (pB : Nat) : Prop :=
  (pS = -1 ∧ pB = 0) ∨ (pS = toChar pB ∧ 0 < pB ∧ pB < 255)


/-! ## Basic lemmas about the memory model -/

theorem sizeSub1_eq {C : Nat} (h1 : 1 ≤ C) (h2 : C < 2 ^ 64) : sizeSub1 C = C - 1 := by
  unfold sizeSub1
  have : C + (2 ^ 64 - 1) = (C - 1) + 2 ^ 64 := by omega
  rw [this, Nat.add_mod_right, Nat.mod_eq_of_lt (by omega)]

theorem bufWrite_nat (buf : List Nat) (i : Nat) (v : Nat) (h : i < buf.length) :
    bufWrite buf (i : Int) v = (buf.set i v, false) := by
  simp [bufWrite, h]

theorem bufWrite_nat_oob (buf : List Nat) (i : Nat) (v : Nat) (h : buf.length ≤ i) :
    bufWrite buf (i : Int) v = (buf, true) := by
  simp [bufWrite]
  omega

theorem bufRead_nat (buf : List Nat) (i : Nat) (h : i < buf.length) :
    bufRead buf (i : Int) = (buf.getD i 0, false) := by
  simp [bufRead, h]

theorem set_append_len (acc rest : List Nat) (v : Nat) :
    (acc ++ rest).set acc.length v = acc ++ rest.set 0 v := by
  induction acc with
  | nil => rfl
  | cons a acc ih => simpa using ih

theorem getD_append_len (acc rest : List Nat) (d : Nat) :
    (acc ++ rest).getD acc.length d = rest.getD 0 d := by
  induction acc with
  | nil => rfl
  | cons a acc ih => simpa using ih

theorem set_append_pred (acc : List Nat) (h : acc ≠ []) (rest : List Nat) (v : Nat) :
    (acc ++ rest).set (acc.length - 1) v = (acc.dropLast ++ [v]) ++ rest := by
  induction acc with
  | nil => exact absurd rfl h
  | cons a t ih =>
    cases t with
    | nil => simp
    | cons b t' => simpa using ih (by simp)

theorem cstr_append_zero (acc rest : List Nat) (h : 0 ∉ acc) :
    cstr (acc ++ 0 :: rest) = acc := by
  induction acc with
  | nil => simp [cstr]
  | cons a acc ih =>
    simp only [List.mem_cons, not_or] at h
    have ha : a ≠ 0 := fun e => h.1 e.symm
    simpa [cstr, List.takeWhile_cons, ha] using ih h.2

theorem cstr_pad_zero (acc : List Nat) (n : Nat) (rest : List Nat) (h : 0 ∉ acc) :
    cstr (acc ++ (List.replicate n 0 ++ 0 :: rest)) = acc := by
  induction n with
  | zero => simpa using cstr_append_zero acc rest h
  | succ k ih =>
    have : List.replicate (k + 1) 0 ++ 0 :: rest = 0 :: (List.replicate k 0 ++ 0 :: rest) := by
      simp [List.replicate_succ]
    rw [this]
    exact cstr_append_zero acc _ h

/-! ## Lemmas about `rtrim` and the trim loop -/

theorem rtrim_nil : rtrim [] = [] := rfl

theorem rtrim_concat_ws (l : List Nat) (a : Nat) (h : isWs a = true) :
    rtrim (l ++ [a]) = rtrim l := by
  simp [rtrim, List.dropWhile_cons, h]

theorem rtrim_concat_not_ws (l : List Nat) (a : Nat) (h : ¬ isWs a = true) :
    rtrim (l ++ [a]) = l ++ [a] := by
  simp [rtrim, List.dropWhile_cons, h]

theorem dropWhile_length_le (p : Nat → Bool) (l : List Nat) :
    (l.dropWhile p).length ≤ l.length := by
  induction l with
  | nil => simp
  | cons a t ih =>
    rw [List.dropWhile_cons]
    split
    · simp only [List.length_cons]; omega
    · simp

theorem dropWhile_subset (p : Nat → Bool) (l : List Nat) :
    ∀ x ∈ l.dropWhile p, x ∈ l := by
  induction l with
  | nil => simp
  | cons a t ih =>
    intro x hx
    rw [List.dropWhile_cons] at hx
    by_cases hp : p a = true
    · simp only [hp, if_true] at hx
      exact List.mem_cons_of_mem a (ih x hx)
    · simp only [hp, if_false] at hx
      exact hx

theorem rtrim_length_le (l : List Nat) : (rtrim l).length ≤ l.length := by
  have := dropWhile_length_le isWs l.reverse
  simpa [rtrim] using this

theorem rtrim_subset (l : List Nat) : ∀ x ∈ rtrim l, x ∈ l := by
  intro x hx
  simp only [rtrim, List.mem_reverse] at hx
  have := dropWhile_subset isWs l.reverse x hx
  simpa using this

/-- Behaviour of the trim loop on a buffer `acc ++ junk` with the cursor
at `acc.length`: it strips the trailing whitespace of `acc`, zeroing the
stripped cells. -/
theorem trimTail_spec (acc : List Nat) :
    ∀ (junk : List Nat) (oob : Bool),
    trimTail acc.length (acc ++ junk) oob =
      ((rtrim acc).length,
       rtrim acc ++ (List.replicate (acc.length - (rtrim acc).length) 0 ++ junk),
       oob) := by
  induction acc using List.reverseRecOn with
  | nil => intro junk oob; simp [trimTail, rtrim_nil]
  | append_singleton l a ih =>
    intro junk oob
    have hlen : (l ++ [a]).length = l.length + 1 := by simp
    rw [hlen]
    have hread : bufRead (l ++ [a] ++ junk) (l.length : Int) = (a, false) := by
      rw [bufRead_nat _ _ (by simp), List.append_assoc, getD_append_len]
      rfl
    by_cases hws : isWs a = true
    · have hwrite : bufWrite (l ++ [a] ++ junk) (l.length : Int) 0
          = (l ++ 0 :: junk, false) := by
        rw [bufWrite_nat _ _ _ (by simp)]
        rw [List.append_assoc, set_append_len]
        simp
      simp only [trimTail, hread, hws, if_true, hwrite, Bool.or_false]
      have := ih (0 :: junk) oob
      rw [show l ++ 0 :: junk = l ++ (0 :: junk) by simp] at *
      rw [this, rtrim_concat_ws l a hws]
      have hle : (rtrim l).length ≤ l.length := rtrim_length_le l
      have : l.length + 1 - (rtrim l).length = (l.length - (rtrim l).length) + 1 := by omega
      rw [this, List.replicate_succ']
      simp
    · simp only [trimTail, hread, hws, if_false, Bool.or_false]
      rw [rtrim_concat_not_ws l a hws]
      simp

/-! ## Bookkeeping for the value-copy loop -/

theorem mem_dropLast {x : Nat} : ∀ {l : List Nat}, x ∈ l.dropLast → x ∈ l
  | [], h => by simp at h
  | [_], h => by simp at h
  | a :: b :: t, h => by
    rw [List.dropLast_cons₂] at h
    rcases List.mem_cons.mp h with h | h
    · exact h ▸ List.mem_cons_self a (b :: t)
    · exact List.mem_cons_of_mem a (mem_dropLast h)

theorem valAcc_len_eq (qt : Bool) :
    ∀ (s : List Nat) (q p : Nat) (acc : List Nat), (p = 92 → acc ≠ []) →
    (valAcc qt s q p acc).1.length = acc.length + copyCount qt s q p := by
  intro s
  induction s with
  | nil => intro q p acc _; simp [valAcc, copyCount]
  | cons b rest ih =>
    intro q p acc hp
    by_cases he : isEol b = true
    · simp [valAcc, copyCount, he]
    by_cases h1 : (qt && q == 0 && (b == 39 || b == 34)) = true
    · simp only [valAcc, copyCount, he, h1]
      simp only [Bool.false_eq_true, if_false, if_true]
      exact ih b p acc hp
    by_cases h2 : (qt && q != 0 && p != 92 && b == q) = true
    · simp [valAcc, copyCount, he, h1, h2]
    by_cases h3 : (qt && q != 0 && p == 92 && b == q) = true
    · have hp92 : p = 92 := by
        simp only [Bool.and_eq_true, beq_iff_eq] at h3
        exact h3.1.2
      have hacc : acc ≠ [] := hp hp92
      simp only [valAcc, copyCount, he, h1, h2, h3]
      simp only [Bool.false_eq_true, if_false, if_true]
      rw [ih q p (acc.dropLast ++ [b]) (by simp)]
      have hl : (acc.dropLast ++ [b]).length = acc.length := by
        rcases acc with _ | ⟨a, t⟩
        · exact absurd rfl hacc
        · simp
      rw [hl]
    · simp only [valAcc, copyCount, he, h1, h2, h3]
      simp only [Bool.false_eq_true, if_false]
      rw [ih q (if qt then b else p) (acc ++ [b]) (by simp)]
      simp
      omega

theorem valAcc_zero (qt : Bool) :
    ∀ (s : List Nat) (q p : Nat) (acc : List Nat), 0 ∉ acc →
    0 ∉ (valAcc qt s q p acc).1 := by
  intro s
  induction s with
  | nil => intro q p acc h0; simpa [valAcc] using h0
  | cons b rest ih =>
    intro q p acc h0
    by_cases he : isEol b = true
    · simpa [valAcc, he] using h0
    have hbne : b ≠ 0 := by
      intro hb; subst hb; simp [isEol] at he
    by_cases h1 : (qt && q == 0 && (b == 39 || b == 34)) = true
    · simp only [valAcc, he, h1, Bool.false_eq_true, if_false, if_true]
      exact ih b p acc h0
    by_cases h2 : (qt && q != 0 && p != 92 && b == q) = true
    · simpa [valAcc, he, h1, h2] using h0
    by_cases h3 : (qt && q != 0 && p == 92 && b == q) = true
    · simp only [valAcc, he, h1, h2, h3, Bool.false_eq_true, if_false, if_true]
      refine ih q p _ ?_
      intro hmem
      rcases List.mem_append.mp hmem with hm | hm
      · exact h0 (mem_dropLast hm)
      · exact hbne (List.mem_singleton.mp hm).symm
    · simp only [valAcc, he, h1, h2, h3, Bool.false_eq_true, if_false]
      refine ih q _ _ ?_
      intro hmem
      rcases List.mem_append.mp hmem with hm | hm
      · exact h0 hm
      · exact hbne (List.mem_singleton.mp hm).symm

/-- The end-of-line exit of the value-copy loop, on a buffer `acc ++ rest0`
with the cursor at `acc.length`: terminate, optionally trim, stay in
bounds. -/
theorem gv_eol (ws : Bool) (acc rest0 : List Nat) (oob : Bool) (h0 : 0 ∉ acc)
    (hlt : acc.length < acc.length + rest0.length) :
    let w := bufWrite (acc ++ rest0) (acc.length : Int) 0
    let r := if ws then trimTail acc.length w.1 (oob || w.2) else (acc.length, w.1, oob || w.2)
    r.1 = (if !ws then acc.length else (rtrim acc).length)
    ∧ cstr r.2.1 = (if !ws then acc else rtrim acc)
    ∧ r.2.1.length = acc.length + rest0.length
    ∧ r.2.2 = oob := by
  rcases rest0 with _ | ⟨r0, rest0'⟩
  · simp at hlt
  have hw : bufWrite (acc ++ r0 :: rest0') (acc.length : Int) 0
      = (acc ++ 0 :: rest0', false) := by
    rw [bufWrite_nat _ _ _ (by simp), set_append_len]
    rfl
  cases ws with
  | false =>
    simp only [hw, Bool.or_false, if_false, Bool.not_false]
    refine ⟨rfl, cstr_append_zero acc rest0' h0, by simp, rfl⟩
  | true =>
    simp only [hw, Bool.or_false, if_true, Bool.not_true]
    rw [show acc ++ 0 :: rest0' = acc ++ (0 :: rest0') from rfl, trimTail_spec]
    have h0t : 0 ∉ rtrim acc := fun hm => h0 (rtrim_subset acc 0 hm)
    refine ⟨rfl, cstr_pad_zero _ _ _ h0t, ?_, rfl⟩
    have := rtrim_length_le acc
    simp [List.length_replicate]
    omega

/-- Characterisation of the value-copy loop when the capacity suffices:
with the destination split as `acc ++ rest0` and the cursor at
`acc.length`, the loop delivers the bytes of `valAcc` (trimmed on an
end-of-line exit when whitespace-skip is on), preserves the buffer
length, and raises no out-of-bounds flag. -/
theorem gv_succ (ws qt : Bool) (vmax : Nat) :
    ∀ (s : List Nat) (q p : Nat) (acc rest0 : List Nat) (oob : Bool),
    (p = 92 → acc ≠ []) → 0 ∉ acc →
    (valAcc qt s q p acc).1.length < sizeSub1 vmax →
    sizeSub1 vmax ≤ acc.length + rest0.length →
    (bufGetValueLoop ws qt vmax s acc.length q p (acc ++ rest0) oob).1
        = (if (valAcc qt s q p acc).2 || !ws then (valAcc qt s q p acc).1.length
           else (rtrim (valAcc qt s q p acc).1).length)
    ∧ cstr (bufGetValueLoop ws qt vmax s acc.length q p (acc ++ rest0) oob).2.1
        = (if (valAcc qt s q p acc).2 || !ws then (valAcc qt s q p acc).1
           else rtrim (valAcc qt s q p acc).1)
    ∧ (bufGetValueLoop ws qt vmax s acc.length q p (acc ++ rest0) oob).2.1.length
        = acc.length + rest0.length
    ∧ (bufGetValueLoop ws qt vmax s acc.length q p (acc ++ rest0) oob).2.2 = oob := by
  intro s
  induction s with
  | nil =>
    intro q p acc rest0 oob hp h0 hfit hlen
    have hg : acc.length < sizeSub1 vmax := by simpa [valAcc] using hfit
    have hlt : acc.length < acc.length + rest0.length := lt_of_lt_of_le hg hlen
    have heol := gv_eol ws acc rest0 oob h0 hlt
    simp only [bufGetValueLoop, hg, if_true, valAcc, Bool.false_or]
    exact heol
  | cons b rest ih =>
    intro q p acc rest0 oob hp h0 hfit hlen
    have hcc := valAcc_len_eq qt (b :: rest) q p acc hp
    have hg : acc.length < sizeSub1 vmax := by omega
    have hlt : acc.length < acc.length + rest0.length := lt_of_lt_of_le hg hlen
    by_cases he : isEol b = true
    · have heol := gv_eol ws acc rest0 oob h0 hlt
      simp only [bufGetValueLoop, hg, if_true, valAcc, he, Bool.false_or]
      exact heol
    have hbne : b ≠ 0 := by
      intro hb; subst hb; simp [isEol] at he
    by_cases h1 : (qt && q == 0 && (b == 39 || b == 34)) = true
    · have hrec := ih b p acc rest0 oob hp h0
        (by simpa [valAcc, he, h1, Bool.false_eq_true] using hfit) hlen
      simpa [bufGetValueLoop, hg, valAcc, he, h1, Bool.false_eq_true] using hrec
    by_cases h2 : (qt && q != 0 && p != 92 && b == q) = true
    · rcases rest0 with _ | ⟨r0, rest0'⟩
      · simp at hlt
      have hw : bufWrite (acc ++ r0 :: rest0') (acc.length : Int) 0
          = (acc ++ 0 :: rest0', false) := by
        rw [bufWrite_nat _ _ _ (by simp), set_append_len]
        rfl
      simp only [bufGetValueLoop, hg, if_true, valAcc, he, h1, h2,
        Bool.false_eq_true, if_false, if_true, hw, Bool.or_false, Bool.true_or]
      refine ⟨by simp, ?_, by simp, by simp⟩
      exact cstr_append_zero acc rest0' h0
    by_cases h3 : (qt && q != 0 && p == 92 && b == q) = true
    · have hp92 : p = 92 := by
        simp only [Bool.and_eq_true, beq_iff_eq] at h3
        exact h3.1.2
      have hacc : acc ≠ [] := hp hp92
      have hlen1 : 1 ≤ acc.length := by
        rcases acc with _ | _
        · exact absurd rfl hacc
        · simp
      have hidx : ((acc.length : Int) - 1) = ((acc.length - 1 : Nat) : Int) := by omega
      have hw : bufWrite (acc ++ rest0) ((acc.length : Int) - 1) b
          = ((acc.dropLast ++ [b]) ++ rest0, false) := by
        rw [hidx, bufWrite_nat _ _ _ (by simp; omega), set_append_pred acc hacc]
      have hl' : (acc.dropLast ++ [b]).length = acc.length := by
        rcases acc with _ | ⟨a, t⟩
        · exact absurd rfl hacc
        · simp
      have h0' : 0 ∉ acc.dropLast ++ [b] := by
        intro hmem
        rcases List.mem_append.mp hmem with hm | hm
        · exact h0 (mem_dropLast hm)
        · exact hbne (List.mem_singleton.mp hm).symm
      have hrec := ih q p (acc.dropLast ++ [b]) rest0 oob (fun _ => by simp) h0'
        (by simpa [valAcc, he, h1, h2, h3, Bool.false_eq_true] using hfit)
        (by rw [hl']; exact hlen)
      rw [hl'] at hrec
      simpa [bufGetValueLoop, hg, valAcc, he, h1, h2, h3, Bool.false_eq_true, hw] using hrec
    · rcases rest0 with _ | ⟨r0, rest0'⟩
      · simp at hlt
      have hlen2 : sizeSub1 vmax ≤ acc.length + (rest0'.length + 1) := by
        simpa using hlen
      have hw : bufWrite (acc ++ r0 :: rest0') (acc.length : Int) b
          = ((acc ++ [b]) ++ rest0', false) := by
        rw [bufWrite_nat _ _ _ (by simp), set_append_len]
        simp
      have h0' : 0 ∉ acc ++ [b] := by
        intro hmem
        rcases List.mem_append.mp hmem with hm | hm
        · exact h0 hm
        · exact hbne (List.mem_singleton.mp hm).symm
      have hrec := ih q (if qt then b else p) (acc ++ [b]) rest0' oob
        (fun _ => by simp) h0'
        (by simpa [valAcc, he, h1, h2, h3, Bool.false_eq_true] using hfit)
        (by simp; omega)
      have hl' : (acc ++ [b]).length = acc.length + 1 := by simp
      rw [hl'] at hrec
      have hlen' : acc.length + 1 + rest0'.length = acc.length + (r0 :: rest0').length := by
        simp; omega
      rw [hlen'] at hrec
      simpa [bufGetValueLoop, hg, valAcc, he, h1, h2, h3, Bool.false_eq_true, hw] using hrec

/-- Characterisation of the value-copy loop when the capacity does not
suffice: the loop hits the bound and returns length 0 with the first
destination byte zeroed, without any out-of-bounds access. -/
theorem gv_fail (ws qt : Bool) (vmax : Nat) :
    ∀ (s : List Nat) (i : Nat) (q p : Nat) (buf : List Nat) (oob : Bool),
    (p = 92 → 1 ≤ i) →
    sizeSub1 vmax ≤ i + copyCount qt s q p →
    sizeSub1 vmax ≤ buf.length →
    0 < buf.length →
    (bufGetValueLoop ws qt vmax s i q p buf oob).1 = 0
    ∧ (bufGetValueLoop ws qt vmax s i q p buf oob).2.1.headD 1 = 0
    ∧ (bufGetValueLoop ws qt vmax s i q p buf oob).2.1.length = buf.length
    ∧ (bufGetValueLoop ws qt vmax s i q p buf oob).2.2 = oob := by
  intro s
  induction s with
  | nil =>
    intro i q p buf oob hp hC hbl hb1
    have hig : ¬ i < sizeSub1 vmax := by simp [copyCount] at hC; omega
    have hw : bufWrite buf (0 : Int) 0 = (buf.set 0 0, false) := by
      simpa using bufWrite_nat buf 0 0 hb1
    simp only [bufGetValueLoop, hig, if_false, hw, Bool.or_false]
    refine ⟨by simp, ?_, by simp, by simp⟩
    rcases buf with _ | ⟨x, t⟩
    · simp at hb1
    · rfl
  | cons b rest ih =>
    intro i q p buf oob hp hC hbl hb1
    by_cases hig : i < sizeSub1 vmax
    case neg =>
      have hw : bufWrite buf (0 : Int) 0 = (buf.set 0 0, false) := by
        simpa using bufWrite_nat buf 0 0 hb1
      simp only [bufGetValueLoop, hig, if_false, hw, Bool.or_false]
      refine ⟨by simp, ?_, by simp, by simp⟩
      rcases buf with _ | ⟨x, t⟩
      · simp at hb1
      · rfl
    case pos =>
    by_cases he : isEol b = true
    · exfalso
      simp [copyCount, he] at hC
      omega
    by_cases h1 : (qt && q == 0 && (b == 39 || b == 34)) = true
    · have hrec := ih i b p buf oob hp
        (by simpa [copyCount, he, h1, Bool.false_eq_true] using hC) hbl hb1
      simpa [bufGetValueLoop, hig, he, h1, Bool.false_eq_true] using hrec
    by_cases h2 : (qt && q != 0 && p != 92 && b == q) = true
    · exfalso
      simp [copyCount, he, h1, h2, Bool.false_eq_true] at hC
      omega
    by_cases h3 : (qt && q != 0 && p == 92 && b == q) = true
    · have hp92 : p = 92 := by
        simp only [Bool.and_eq_true, beq_iff_eq] at h3
        exact h3.1.2
      have hi1 : 1 ≤ i := hp hp92
      have hidx : ((i : Int) - 1) = ((i - 1 : Nat) : Int) := by omega
      have hw : bufWrite buf ((i : Int) - 1) b = (buf.set (i - 1) b, false) := by
        rw [hidx, bufWrite_nat _ _ _ (by omega)]
      have hrec := ih i q p (buf.set (i - 1) b) oob hp
        (by simpa [copyCount, he, h1, h2, h3, Bool.false_eq_true] using hC)
        (by simpa using hbl) (by simpa using hb1)
      simpa [bufGetValueLoop, hig, he, h1, h2, h3, Bool.false_eq_true, hw] using hrec
    · have hw : bufWrite buf (i : Int) b = (buf.set i b, false) := by
        rw [bufWrite_nat _ _ _ (by omega)]
      have hC' : sizeSub1 vmax ≤ (i + 1) + copyCount qt rest q (if qt then b else p) := by
        simp only [copyCount, he, h1, h2, h3, Bool.false_eq_true, if_false] at hC
        omega
      have hrec := ih (i + 1) q (if qt then b else p) (buf.set i b) oob
        (fun _ => by omega) hC' (by simpa using hbl) (by simpa using hb1)
      simpa [bufGetValueLoop, hig, he, h1, h2, h3, Bool.false_eq_true, hw] using hrec

theorem cstr_head_zero (l : List Nat) (h : l.headD 1 = 0) : cstr l = [] := by
  rcases l with _ | ⟨a, t⟩
  · rfl
  · simp only [List.headD_cons] at h
    subst h
    simp [cstr]

/-- Full characterisation of `kv_parse_buffer_get_value` for a destination
of capacity `C` with `1 ≤ C < 2^64`: it fails (length 0, empty C string)
exactly when the copy loop would store `C - 1` or more bytes, and
otherwise delivers `valFinal`; either way no out-of-bounds access
happens and the buffer keeps its length. -/
theorem bufGetValue_spec (ws qt : Bool) (s : List Nat) (C : Nat) (buf : List Nat)
    (hb : buf.length = C) (h1 : 1 ≤ C) (h2 : C < 2 ^ 64) :
    (C - 1 ≤ (valAcc qt (if ws then s.dropWhile isWs else s) 0 0 []).1.length →
      (bufGetValue ws qt s C buf).1 = 0
      ∧ cstr (bufGetValue ws qt s C buf).2.1 = []
      ∧ (bufGetValue ws qt s C buf).2.1.length = C
      ∧ (bufGetValue ws qt s C buf).2.2 = false)
    ∧ ((valAcc qt (if ws then s.dropWhile isWs else s) 0 0 []).1.length < C - 1 →
      (bufGetValue ws qt s C buf).1 = (valFinal ws qt s).length
      ∧ cstr (bufGetValue ws qt s C buf).2.1 = valFinal ws qt s
      ∧ (bufGetValue ws qt s C buf).2.1.length = C
      ∧ (bufGetValue ws qt s C buf).2.2 = false) := by
  have hss : sizeSub1 C = C - 1 := sizeSub1_eq h1 h2
  constructor
  · intro hge
    have hcc : (valAcc qt (if ws then s.dropWhile isWs else s) 0 0 []).1.length
        = copyCount qt (if ws then s.dropWhile isWs else s) 0 0 := by
      simpa using valAcc_len_eq qt (if ws then s.dropWhile isWs else s) 0 0 [] (by simp)
    have hf := gv_fail ws qt C (if ws then s.dropWhile isWs else s) 0 0 0 buf false
      (by omega) (by omega) (by omega) (by omega)
    simp only [bufGetValue]
    exact ⟨hf.1, cstr_head_zero _ hf.2.1, by rw [hf.2.2.1, hb], hf.2.2.2⟩
  · intro hlt
    have hsc := gv_succ ws qt C (if ws then s.dropWhile isWs else s) 0 0 [] buf false
      (by simp) (by simp) (by simpa [hss] using hlt) (by simp; omega)
    simp only [List.nil_append, List.length_nil, Nat.zero_add] at hsc
    simp only [bufGetValue, valFinal]
    refine ⟨?_, ?_, ?_, ?_⟩
    · rw [hsc.1, apply_ite List.length]
    · exact hsc.2.1
    · rw [hsc.2.2.1, hb]
    · exact hsc.2.2.2

/-! ## Bridging facts between `char`-typed stream reads and raw bytes -/

theorem toChar_eq_iff (b : Nat) (v : Int) (hb : b < 256) (hv0 : 0 ≤ v) (hv : v < 128) :
    (toChar b = v) ↔ ((b : Int) = v) := by
  unfold toChar; split <;> omega

theorem toChar_ne_neg_one {b : Nat} (h0 : 0 < b) (h255 : b < 255) :
    toChar b ≠ -1 := by
  unfold toChar
  split <;> omega

theorem toChar_eq_neg_one {b : Nat} (hb : b < 256) : toChar b = -1 ↔ b = 255 := by
  unfold toChar
  split <;> omega

theorem toChar_inj {b k : Nat} (hb : b < 256) (hk : k < 256) :
    toChar b = toChar k ↔ b = k := by
  unfold toChar
  split <;> split <;> omega

theorem chByte_toChar {b : Nat} (hb : b < 256) : chByte (toChar b) = b := by
  unfold chByte toChar
  split <;> omega

theorem toChar_beq (b v : Nat) (hb : b < 256) (hv : v < 128) :
    (toChar b == (v : Int)) = (b == v) := by
  by_cases h : b = v
  · subst h
    have hc : toChar b = (b : Int) := by unfold toChar; split <;> omega
    rw [hc]
    simp
  · have hc : ¬ (toChar b = (v : Int)) := by
      rw [toChar_eq_iff b v hb (by omega) (by omega)]
      omega
    simp [hc, h]

theorem isWs_iff_toChar {b : Nat} (hb : b < 256) :
    (toChar b = 32 ∨ toChar b = 9) ↔ isWs b = true := by
  rw [toChar_eq_iff b 32 hb (by omega) (by omega),
    toChar_eq_iff b 9 hb (by omega) (by omega)]
  simp [isWs]
  omega

/-! ## Stream/buffer equivalence, operation by operation -/

theorem cleanBytes_tail {b : Nat} {bs : List Nat} (h : cleanBytes (b :: bs)) :
    cleanBytes bs := fun x hx => h x (List.mem_cons_of_mem b hx)

theorem cleanBytes_dropWhile (p : Nat → Bool) {s : List Nat} (h : cleanBytes s) :
    cleanBytes (s.dropWhile p) := fun x hx => h x (dropWhile_subset p s x hx)

theorem sNextLineLoop_eq :
    ∀ (s : List Nat) (ch : Nat), 0 < ch → ch < 255 → cleanBytes s →
    sNextLineLoop (toChar ch) s = bufNextLineLoop ch s := by
  intro s
  induction s with
  | nil =>
    intro ch h0 h255 _
    simp only [sNextLineLoop, bufNextLineLoop]
    split
    · simp [sGetc]
    · rfl
  | cons b bs ih =>
    intro ch h0 h255 hc
    have hb := hc b (List.mem_cons_self b bs)
    have hch1 : toChar ch ≠ -1 := toChar_ne_neg_one h0 h255
    have hch0 : ch ≠ 0 := by omega
    by_cases h10 : ch = 10
    · subst h10
      have : toChar 10 = 10 := by simp [toChar]
      simp only [sNextLineLoop, bufNextLineLoop, this]
      have hpeek : sGetc (b :: bs) ≠ -1 := toChar_ne_neg_one hb.1 hb.2
      have hb0 : b ≠ 0 := by omega
      simp [hpeek, hb0]
    · have hch10 : toChar ch ≠ 10 := by
        rw [Ne, toChar_eq_iff ch 10 (by omega) (by omega) (by omega)]
        omega
      simp only [sNextLineLoop, bufNextLineLoop, hch1, hch10, hch0, h10,
        if_false, if_neg]
      exact ih b hb.1 hb.2 (cleanBytes_tail hc)

theorem sNextLine_eq (s : List Nat) (n : Nat) (hc : cleanBytes s) :
    sNextLine s n = bufNextLine s n := by
  unfold sNextLine bufNextLine
  by_cases hn : n = 0
  · simp [hn]
  · simp only [hn, if_false]
    rcases s with _ | ⟨b, bs⟩
    · simp [sGetc, sNextLineLoop, bufNextLineLoop]
    · have hb := hc b (List.mem_cons_self b bs)
      simp only [sGetc, List.headD_cons, List.tail_cons]
      exact sNextLineLoop_eq bs b hb.1 hb.2 (cleanBytes_tail hc)

theorem sSkipWs_eq :
    ∀ (s : List Nat), (∀ b ∈ s, b < 256) →
    sSkipWs (sGetc s) s.tail
      = (sGetc (s.dropWhile isWs), (s.dropWhile isWs).tail) := by
  intro s
  induction s with
  | nil => intro _; simp [sSkipWs, sGetc]
  | cons b bs ih =>
    intro hlt
    have hb : b < 256 := hlt b (List.mem_cons_self b bs)
    by_cases hws : isWs b = true
    · have hcond : toChar b = 32 ∨ toChar b = 9 := (isWs_iff_toChar hb).mpr hws
      have step : sSkipWs (sGetc (b :: bs)) (b :: bs).tail = sSkipWs (sGetc bs) bs.tail := by
        rcases bs with _ | ⟨c, cs⟩
        · simp [sSkipWs, sGetc, hcond]
        · simp [sSkipWs, sGetc, hcond]
      rw [step, ih (fun x hx => hlt x (List.mem_cons_of_mem b hx)),
        List.dropWhile_cons_of_pos hws]
    · have hcond : ¬ (toChar b = 32 ∨ toChar b = 9) := fun h =>
        hws ((isWs_iff_toChar hb).mp h)
      rw [List.dropWhile_cons_of_neg hws]
      rcases bs with _ | ⟨c, cs⟩
      · simp [sSkipWs, sGetc, hcond]
      · simp [sSkipWs, sGetc, hcond]

theorem keyCmp_subset :
    ∀ (s key t : List Nat), keyCmp s key = some t → ∀ x ∈ t, x ∈ s := by
  intro s
  induction s with
  | nil =>
    intro key t h x hx
    rcases key with _ | ⟨k, ks⟩ <;> simp [keyCmp] at h <;> subst h <;> simp at hx
  | cons a s' ih =>
    intro key t h x hx
    rcases key with _ | ⟨k, ks⟩
    · simp [keyCmp] at h
      subst h
      exact hx
    · simp only [keyCmp] at h
      split at h
      · exact List.mem_cons_of_mem a (ih ks t h x hx)
      · exact absurd h (by simp)

theorem sMatchKey_eq :
    ∀ (key s : List Nat), cleanBytes s → (∀ k ∈ key, k < 256) →
    sMatchKey (sGetc s) s.tail key
      = match keyCmp s key with
        | none => none
        | some t => some (sGetc t, t.tail) := by
  intro key
  induction key with
  | nil => intro s _ _; simp [sMatchKey, keyCmp]
  | cons k ks ih =>
    intro s hc hk
    have hk1 : k < 256 := hk k (List.mem_cons_self k ks)
    rcases s with _ | ⟨b, bs⟩
    · simp [sMatchKey, keyCmp, sGetc]
    · have hb := hc b (List.mem_cons_self b bs)
      have hch1 : sGetc (b :: bs) ≠ -1 := toChar_ne_neg_one hb.1 hb.2
      by_cases hbk : b = k
      · subst hbk
        have ihbs := ih bs (cleanBytes_tail hc)
          (fun x hx => hk x (List.mem_cons_of_mem b hx))
        have heq : sGetc (b :: bs) = toChar b := rfl
        have hch1t : ¬ (toChar b = -1) := by
          rw [toChar_eq_neg_one (by omega)]
          omega
        simp only [sMatchKey, keyCmp, List.tail_cons, hch1, heq, ne_eq,
          not_true_eq_false, if_false, if_true, if_pos rfl, ite_self]
        rcases bs with _ | ⟨c, cs⟩
        · simpa [sMatchKey, keyCmp, sGetc, hch1t] using ihbs
        · simpa [hch1t] using ihbs
      · have hne : sGetc (b :: bs) ≠ toChar k := by
          show toChar b ≠ toChar k
          rw [Ne, toChar_inj (by omega) hk1]
          exact hbk
        simp [sMatchKey, keyCmp, hch1, hne, hbk]

theorem sCheckKey_eq (ws : Bool) (s key : List Nat)
    (hc : cleanBytes s) (hk : ∀ k ∈ key, k < 256) :
    sCheckKey ws s key = bufCheckKey ws s key := by
  have hdel : ∀ (u : List Nat), cleanBytes u →
      ((sGetc u = 61 ∨ sGetc u = 58) ↔ (u.headD 0 = 61 ∨ u.headD 0 = 58)) := by
    intro u hu
    rcases u with _ | ⟨b, bs⟩
    · simp [sGetc]
    · have hb := hu b (List.mem_cons_self b bs)
      simp only [sGetc, List.headD_cons]
      rw [toChar_eq_iff b 61 (by omega) (by omega) (by omega),
        toChar_eq_iff b 58 (by omega) (by omega) (by omega)]
      omega
  simp only [sCheckKey, bufCheckKey]
  have hskip : (if ws then sSkipWs (sGetc s) s.tail else (sGetc s, s.tail))
      = (sGetc (if ws then s.dropWhile isWs else s),
         (if ws then s.dropWhile isWs else s).tail) := by
    cases ws
    · simp
    · simpa using sSkipWs_eq s (fun b hb => by have := (hc b hb).2; omega)
  rw [hskip]
  have hc1 : cleanBytes (if ws then s.dropWhile isWs else s) := by
    cases ws
    · simpa using hc
    · simpa using cleanBytes_dropWhile isWs hc
  rw [sMatchKey_eq key (if ws then s.dropWhile isWs else s) hc1 hk]
  rcases hmk : keyCmp (if ws then s.dropWhile isWs else s) key with _ | t
  · rfl
  · have hct : cleanBytes t := fun x hx => hc1 x (keyCmp_subset _ key t hmk x hx)
    have hskip2 : (if ws then sSkipWs (sGetc t) t.tail else (sGetc t, t.tail))
        = (sGetc (if ws then t.dropWhile isWs else t),
           (if ws then t.dropWhile isWs else t).tail) := by
      cases ws
      · simp
      · simpa using sSkipWs_eq t (fun b hb => by have := (hct b hb).2; omega)
    simp only [hskip2]
    have hcu : cleanBytes (if ws then t.dropWhile isWs else t) := by
      cases ws
      · simpa using hct
      · simpa using cleanBytes_dropWhile isWs hct
    by_cases hdc : ((if ws then t.dropWhile isWs else t).headD 0 = 61
        ∨ (if ws then t.dropWhile isWs else t).headD 0 = 58)
    · rw [if_pos ((hdel _ hcu).mpr hdc), if_pos hdc]
    · rw [if_neg (fun h => hdc ((hdel _ hcu).mp h)), if_neg hdc]

theorem toChar_beq39 (b : Nat) (hb : b < 256) : (toChar b == (39 : Int)) = (b == 39) := by
  by_cases h : b = 39
  · subst h; decide
  · have hne : toChar b ≠ (39 : Int) := by unfold toChar; split <;> omega
    simp [hne, h]

theorem toChar_beq34 (b : Nat) (hb : b < 256) : (toChar b == (34 : Int)) = (b == 34) := by
  by_cases h : b = 34
  · subst h; decide
  · have hne : toChar b ≠ (34 : Int) := by unfold toChar; split <;> omega
    simp [hne, h]

theorem toChar_beq92 (b : Nat) (hb : b < 256) : (toChar b == (92 : Int)) = (b == 92) := by
  by_cases h : b = 92
  · subst h; decide
  · have hne : toChar b ≠ (92 : Int) := by unfold toChar; split <;> omega
    simp [hne, h]

theorem toChar_beq_cast (b q : Nat) (hb : b < 256) (hq : q < 128) :
    (toChar b == (q : Int)) = (b == q) := by
  by_cases h : b = q
  · subst h
    have hc : toChar b = (b : Int) := by unfold toChar; split <;> omega
    rw [hc]
    simp
  · have hne : ¬ (toChar b = (q : Int)) := by
      unfold toChar; split <;> omega
    simp [hne, h]



theorem sGetValueLoop_eof (ws qt : Bool) (vmax : Nat) (i : Nat) (qS pS : Int)
    (buf : List Nat) (oob : Bool) :
    sGetValueLoop ws qt vmax (-1) [] i qS pS buf oob = sGetValueFin ws vmax i buf oob := by
  simp [sGetValueLoop, sGetValueFin]

/-- One unfolding step of `sGetValueLoop`, in the exact shape of the C
loop body: read the branch, then fetch the next `ch` with `getc`. -/
theorem sGetValueLoop_unfold (ws qt : Bool) (vmax : Nat) (ch : Int) (s : List Nat)
    (i : Nat) (qS pS : Int) (buf : List Nat) (oob : Bool) :
    sGetValueLoop ws qt vmax ch s i qS pS buf oob =
      if i < sizeSub1 vmax then
        if ch = -1 ∨ ch = 13 ∨ ch = 10 then gvEolExit ws i buf oob
        else if qt && qS == -1 && (ch == 39 || ch == 34) then
          sGetValueLoop ws qt vmax (sGetc s) s.tail i ch pS buf oob
        else if qt && qS != -1 && pS != 92 && ch == qS then
          let w := bufWrite buf i 0
          (i, w.1, oob || w.2)
        else if qt && qS != -1 && pS == 92 && ch == qS then
          let w := bufWrite buf ((i : Int) - 1) (chByte ch)
          sGetValueLoop ws qt vmax (sGetc s) s.tail i qS pS w.1 (oob || w.2)
        else
          let prev' := if qt then ch else pS
          let w := bufWrite buf i (chByte ch)
          sGetValueLoop ws qt vmax (sGetc s) s.tail (i + 1) qS prev' w.1 (oob || w.2)
      else gvCapExit buf oob := by
  cases s with
  | nil => simp only [sGetc, List.tail_nil, sGetValueLoop_eof]; rfl
  | cons b bs => simp only [sGetc, List.tail_cons]; rfl

theorem sGetValueLoop_eq (ws qt : Bool) (vmax : Nat) :
    ∀ (s : List Nat) (i : Nat) (qS pS : Int) (qB pB : Nat) (buf : List Nat) (oob : Bool),
    cleanBytes s → quoteRel qS qB → prevRel pS pB →
    sGetValueLoop ws qt vmax (sGetc s) s.tail i qS pS buf oob
      = bufGetValueLoop ws qt vmax s i qB pB buf oob := by
  intro s
  induction s with
  | nil =>
    intro i qS pS qB pB buf oob _ _ _
    show sGetValueLoop ws qt vmax (-1) [] i qS pS buf oob = _
    rw [sGetValueLoop_eof]
    simp only [sGetValueFin, bufGetValueLoop, gvEolExit, gvCapExit]
  | cons b bs ih =>
    intro i qS pS qB pB buf oob hc hq hp
    have hbb := hc b (List.mem_cons_self b bs)
    have hb256 : b < 256 := by omega
    have hcbs : cleanBytes bs := cleanBytes_tail hc
    rw [show sGetc (b :: bs) = toChar b from rfl, show (b :: bs).tail = bs from rfl,
      sGetValueLoop_unfold]
    simp only [bufGetValueLoop]
    by_cases hg : i < sizeSub1 vmax
    case neg =>
      rw [if_neg hg, if_neg hg]
      simp [gvCapExit]
    case pos =>
    rw [if_pos hg, if_pos hg]
    by_cases he : isEol b = true
    · have heS : (toChar b = -1 ∨ toChar b = 13 ∨ toChar b = 10) := by
        simp only [isEol, Bool.or_eq_true, beq_iff_eq] at he
        rcases he with (h | h) | h
        · exact absurd h (by omega)
        · subst h; right; left; decide
        · subst h; right; right; decide
      rw [if_pos heS, if_pos he]
      simp [gvEolExit]
    · have heS : ¬ (toChar b = -1 ∨ toChar b = 13 ∨ toChar b = 10) := by
        simp only [isEol, Bool.or_eq_true, beq_iff_eq, not_or] at he ⊢
        refine ⟨toChar_ne_neg_one hbb.1 hbb.2, ?_, ?_⟩
        · rw [toChar_eq_iff b 13 hb256 (by omega) (by omega)]; omega
        · rw [toChar_eq_iff b 10 hb256 (by omega) (by omega)]; omega
      rw [if_neg heS, if_neg he]
      have hq1 : (qS == -1) = (qB == 0) := by
        rcases hq with ⟨h1, h2⟩ | ⟨h1, h2⟩
        · subst h1; subst h2; decide
        · subst h1
          rcases h2 with h | h <;> subst h <;> decide
      have hp92 : (pS != 92) = (pB != 92) := by
        rcases hp with ⟨h1, h2⟩ | ⟨h1, h2⟩
        · subst h1; subst h2; decide
        · subst h1
          have h3 := toChar_beq92 pB (by omega)
          simp [bne, h3]
      have hchq : (toChar b == qS) = (b == qB) := by
        rcases hq with ⟨h1, h2⟩ | ⟨h1, h2⟩
        · subst h1; subst h2
          have hl : (toChar b == (-1 : Int)) = false := by
            simp [toChar_ne_neg_one hbb.1 hbb.2]
          have hr : (b == 0) = false := by
            simp
            omega
          rw [hl, hr]
        · subst h1
          exact toChar_beq_cast b qB hb256 (by omega)
      have hcond1 : (qt && qS == -1 && (toChar b == 39 || toChar b == 34))
          = (qt && qB == 0 && (b == 39 || b == 34)) := by
        rw [hq1, toChar_beq39 b hb256, toChar_beq34 b hb256]
      have hqne : (qS != -1) = (qB != 0) := by
        simp [bne, hq1]
      have hcond2 : (qt && qS != -1 && pS != 92 && (toChar b == qS))
          = (qt && qB != 0 && pB != 92 && (b == qB)) := by
        rw [hchq, hp92, hqne]
      have hpe : (pS == 92) = (pB == 92) := by
        have h3 := hp92
        simp only [bne] at h3
        have h4 := congrArg (fun x => !x) h3
        simpa using h4
      have hcond3 : (qt && qS != -1 && pS == 92 && (toChar b == qS))
          = (qt && qB != 0 && pB == 92 && (b == qB)) := by
        rw [hchq, hqne, hpe]
      rw [hcond1, hcond2, hcond3]
      by_cases h1 : (qt && qB == 0 && (b == 39 || b == 34)) = true
      · rw [if_pos h1, if_pos h1]
        have hb3439 : b = 39 ∨ b = 34 := by
          simp only [Bool.and_eq_true, Bool.or_eq_true, beq_iff_eq] at h1
          exact h1.2
        have hq' : quoteRel (toChar b) b := by
          right
          constructor
          · unfold toChar
            rcases hb3439 with h | h <;> subst h <;> decide
          · rcases hb3439 with h | h <;> subst h <;> simp
        exact ih i (toChar b) pS b pB buf oob hcbs hq' hp
      · rw [if_neg h1, if_neg h1]
        by_cases h2 : (qt && qB != 0 && pB != 92 && (b == qB)) = true
        · rw [if_pos h2, if_pos h2]
        · rw [if_neg h2, if_neg h2]
          by_cases h3 : (qt && qB != 0 && pB == 92 && (b == qB)) = true
          · rw [if_pos h3, if_pos h3,
              show chByte (toChar b) = b from chByte_toChar hb256]
            exact ih i qS pS qB pB _ _ hcbs hq hp
          · rw [if_neg h3, if_neg h3,
              show chByte (toChar b) = b from chByte_toChar hb256]
            have hp' : prevRel (if qt then toChar b else pS) (if qt then b else pB) := by
              cases qt
              · simpa using hp
              · right
                exact ⟨rfl, hbb.1, hbb.2⟩
            exact ih (i + 1) qS (if qt then toChar b else pS) qB (if qt then b else pB)
              _ _ hcbs hq hp'

theorem sGetValue_eq (ws qt : Bool) (s : List Nat) (C : Nat) (buf : List Nat)
    (hc : cleanBytes s) :
    sGetValue ws qt s C buf
      = ((bufGetValue ws qt s C buf).1, (bufGetValue ws qt s C buf).2.1,
         (bufGetValue ws qt s C buf).2.2, s) := by
  simp only [sGetValue, bufGetValue]
  have hskip : (if ws then sSkipWs (sGetc s) s.tail else (sGetc s, s.tail))
      = (sGetc (if ws then s.dropWhile isWs else s),
         (if ws then s.dropWhile isWs else s).tail) := by
    cases ws
    · simp
    · simpa using sSkipWs_eq s (fun b hb => by have := (hc b hb).2; omega)
  rw [hskip]
  have hc1 : cleanBytes (if ws then s.dropWhile isWs else s) := by
    cases ws
    · simpa using hc
    · simpa using cleanBytes_dropWhile isWs hc
  rw [sGetValueLoop_eq ws qt C (if ws then s.dropWhile isWs else s) 0 (-1) (-1) 0 0
    buf false hc1 (Or.inl ⟨rfl, rfl⟩) (Or.inl ⟨rfl, rfl⟩)]

theorem chByte_ofNat {b : Nat} (hb : b < 256) : chByte (b : Int) = b := by
  unfold chByte
  omega

theorem sSectLoop_eof (smax : Nat) (i : Nat) (buf : List Nat) (oob : Bool) :
    sCheckSectionLoop smax (-1) [] i buf oob = sSectFin smax i buf oob := by
  simp [sCheckSectionLoop, sSectFin]

/-- One unfolding step of `sCheckSectionLoop`, in the exact shape of the
C loop body. -/
theorem sCheckSectionLoop_unfold (smax : Nat) (ch : Int) (s : List Nat) (i : Nat)
    (buf : List Nat) (oob : Bool) :
    sCheckSectionLoop smax ch s i buf oob =
      if i < sizeSub1 smax then
        if ch = -1 ∨ ch = 13 ∨ ch = 10 then sectionEolExit i buf oob
        else
          let w := bufWrite buf i (chByte ch)
          sCheckSectionLoop smax (sGetcInt s) s.tail (i + 1) w.1 (oob || w.2)
      else gvCapExit buf oob := by
  cases s with
  | nil => simp only [sGetcInt, List.tail_nil, sSectLoop_eof]; rfl
  | cons b bs => simp only [sGetcInt, List.tail_cons]; rfl

theorem sCheckSectionLoop_eq (smax : Nat) :
    ∀ (s : List Nat) (i : Nat) (buf : List Nat) (oob : Bool),
    (∀ b ∈ s, 0 < b ∧ b < 256) →
    sCheckSectionLoop smax (sGetcInt s) s.tail i buf oob
      = bufCheckSectionLoop smax s i buf oob := by
  intro s
  induction s with
  | nil =>
    intro i buf oob _
    show sCheckSectionLoop smax (-1) [] i buf oob = _
    rw [sSectLoop_eof]
    simp only [sSectFin, bufCheckSectionLoop, gvCapExit]
  | cons b bs ih =>
    intro i buf oob hc
    have hbb := hc b (List.mem_cons_self b bs)
    rw [show sGetcInt (b :: bs) = (b : Int) from rfl,
      show (b :: bs).tail = bs from rfl, sCheckSectionLoop_unfold]
    simp only [bufCheckSectionLoop]
    by_cases hg : i < sizeSub1 smax
    case neg =>
      rw [if_neg hg, if_neg hg]
      simp [gvCapExit]
    case pos =>
    rw [if_pos hg, if_pos hg]
    by_cases he : isEol b = true
    · have heS : ((b : Int) = -1 ∨ (b : Int) = 13 ∨ (b : Int) = 10) := by
        simp only [isEol, Bool.or_eq_true, beq_iff_eq] at he
        rcases he with (h | h) | h
        · exact absurd h (by omega)
        · subst h; right; left; rfl
        · subst h; right; right; rfl
      rw [if_pos heS, if_pos he]
    · have heS : ¬ ((b : Int) = -1 ∨ (b : Int) = 13 ∨ (b : Int) = 10) := by
        simp only [isEol, Bool.or_eq_true, beq_iff_eq] at he
        push_neg at he ⊢
        refine ⟨by omega, by omega, by omega⟩
      rw [if_neg heS, if_neg he, chByte_ofNat (by omega)]
      exact ih (i + 1) _ _ (fun x hx => hc x (List.mem_cons_of_mem b hx))

theorem sCheckSection_eq (s : List Nat) (C : Nat) (buf : List Nat)
    (hc : ∀ b ∈ s, 0 < b ∧ b < 256) :
    sCheckSection s C buf
      = ((bufCheckSection s C buf).1, (bufCheckSection s C buf).2.1,
         (bufCheckSection s C buf).2.2, s) := by
  unfold sCheckSection bufCheckSection
  have hbr : (sGetcInt s ≠ 91) ↔ (s.headD 0 ≠ 91) := by
    rcases s with _ | ⟨b, bs⟩
    · simp [sGetcInt]
    · have hb := hc b (List.mem_cons_self b bs)
      simp only [sGetcInt, List.headD_cons]
      omega
  by_cases hb91 : s.headD 0 ≠ 91
  · rw [if_pos (hbr.mpr hb91), if_pos hb91]
  · rw [if_neg (fun h => hb91 (hbr.mp h)), if_neg hb91]
    rcases s with _ | ⟨b, bs⟩
    · simp at hb91
    · simp only [List.tail_cons]
      rw [sCheckSectionLoop_eq C bs 0 buf false
        (fun x hx => hc x (List.mem_cons_of_mem b hx))]

/-! ## Zeroing behaviour of the `check_section` loop on failure -/

theorem bufWrite_length (buf : List Nat) (i : Int) (v : Nat) :
    (bufWrite buf i v).1.length = buf.length := by
  unfold bufWrite
  split <;> simp

theorem trimTail_length :
    ∀ (i : Nat) (buf : List Nat) (oob : Bool),
    (trimTail i buf oob).2.1.length = buf.length := by
  intro i
  induction i with
  | zero => intro buf oob; rfl
  | succ k ih =>
    intro buf oob
    simp only [trimTail]
    split
    · rw [ih]
      exact bufWrite_length buf k 0
    · rfl

theorem headD_set_zero (l : List Nat) (h : 0 < l.length) :
    ((l.set 0 0).headD 1) = 0 := by
  rcases l with _ | ⟨a, t⟩
  · simp at h
  · rfl

theorem bufWrite_zero_headD (buf : List Nat) (h : 0 < buf.length) :
    ((bufWrite buf 0 0).1.headD 1) = 0 := by
  unfold bufWrite
  rw [if_pos (by simp; omega)]
  exact headD_set_zero buf h

theorem bracketCheck_length (t : Nat × List Nat × Bool) :
    (bracketCheck t).2.1.length = t.2.1.length := by
  obtain ⟨n, l, fl⟩ := t
  simp only [bracketCheck]
  split
  · exact bufWrite_length l 0 0
  · exact bufWrite_length l _ 0

theorem bracketCheck_zero (t : Nat × List Nat × Bool)
    (hlen : 0 < t.2.1.length)
    (hoob : (bracketCheck t).2.2 = false)
    (hz : (bracketCheck t).1 = 0) :
    (bracketCheck t).2.1.headD 1 = 0 := by
  obtain ⟨n, l, fl⟩ := t
  simp only [bracketCheck] at *
  by_cases h93 : (bufRead l ((n : Int) - 1)).1 ≠ 93
  · rw [if_pos h93] at hoob ⊢
    exact bufWrite_zero_headD l hlen
  · rw [if_neg h93] at hoob hz ⊢
    rcases hn : n with _ | k
    · exfalso
      subst hn
      have hrd : (bufRead l ((0 : Nat) - 1 : Int)).2 = true := by
        unfold bufRead
        rw [if_neg (by simp)]
      simp only [hrd] at hoob
      simp at hoob
    · subst hn
      simp only at hz
      have hk : k = 0 := by omega
      subst hk
      have hidx : ((1 : Nat) : Int) - 1 = ((0 : Nat) : Int) := by omega
      rw [hidx, bufWrite_nat _ _ _ hlen]
      exact headD_set_zero l hlen

theorem sectionEolExit_zero (i : Nat) (buf : List Nat) (oob : Bool)
    (hlen : 0 < buf.length)
    (hoob : (sectionEolExit i buf oob).2.2 = false)
    (hz : (sectionEolExit i buf oob).1 = 0) :
    (sectionEolExit i buf oob).2.1.headD 1 = 0 := by
  unfold sectionEolExit at *
  refine bracketCheck_zero _ ?_ hoob hz
  rw [trimTail_length, bufWrite_length]
  exact hlen

theorem sectLoop_zero (smax : Nat) :
    ∀ (s : List Nat) (i : Nat) (buf : List Nat) (oob : Bool),
    0 < buf.length →
    (bufCheckSectionLoop smax s i buf oob).2.2 = false →
    (bufCheckSectionLoop smax s i buf oob).1 = 0 →
    (bufCheckSectionLoop smax s i buf oob).2.1.headD 1 = 0 := by
  intro s
  induction s with
  | nil =>
    intro i buf oob hlen
    simp only [bufCheckSectionLoop]
    split
    · exact sectionEolExit_zero i buf oob hlen
    · intro _ _
      exact bufWrite_zero_headD buf hlen
  | cons b bs ih =>
    intro i buf oob hlen
    simp only [bufCheckSectionLoop]
    by_cases hg : i < sizeSub1 smax
    case neg =>
      rw [if_neg hg]
      intro _ _
      exact bufWrite_zero_headD buf hlen
    case pos =>
    rw [if_pos hg]
    by_cases he : isEol b = true
    · rw [if_pos he]
      exact sectionEolExit_zero i buf oob hlen
    · rw [if_neg he]
      exact ih (i + 1) _ _ (by rw [bufWrite_length]; exact hlen)

/-! ## The claims -/

/-- C4: claimed — for every destination capacity C, including C = 0,
`get_value` and `check_section` write at most C - 1 content bytes plus one
terminator and never write outside indices 0..C-1.  The code violates this
at C = 0: the `size_t` guard `i < (value_max - 1)` wraps to `2^64 - 1`, the
copy loop is entered, and the terminator write `value[0] = '\0'` (resp.
`section[0] = '\0'`) touches index 0 of a zero-byte buffer — the model's
out-of-bounds flag is raised in both engines and in `check_section`. -/
theorem claim_C4 :
    (bufGetValue true true [] 0 []).2.2 = true
    ∧ (sGetValue true true [] 0 []).2.2.1 = true
    ∧ (bufCheckSection [91] 0 []).2.2 = true
    ∧ (sCheckSection [91] 0 []).2.2.1 = true := by decide

/-- C9: claimed — `check_section` touches the destination only at indices
0..C-1, in particular on the input `"[\n"` where the interior is empty.
The code violates this: on `"[\n"` (bytes `[91, 10]`) with capacity 10 the
closing-bracket test evaluates `section[i - 1]` with `i = 0`, reading
index `-1`; the model's out-of-bounds flag is raised in both engines. -/
theorem claim_C9 :
    (bufCheckSection [91, 10] 10 (List.replicate 10 0)).2.2 = true
    ∧ (sCheckSection [91, 10] 10 (List.replicate 10 0)).2.2.1 = true := by decide

set_option maxRecDepth 4000 in
/-- C6: with quoted strings enabled, `path="/home/user=data"` yields
`/home/user=data` (length 15, quotes stripped); the unterminated
`path="/home/user=data` yields the same via the end-of-line fallback; the
escaped-quote line `path="/home/\"user=data"` yields `/home/"user=data`
(length 16).  Verified through the caller loop `kv_parse_buffer`. -/
theorem claim_C6 :
    ((kvParseBuffer true true
        [112,97,116,104,61,34,47,104,111,109,101,47,117,115,101,114,61,100,97,116,97,34]
        [112,97,116,104] 20 (List.replicate 20 0)).1 = 15
      ∧ cstr (kvParseBuffer true true
        [112,97,116,104,61,34,47,104,111,109,101,47,117,115,101,114,61,100,97,116,97,34]
        [112,97,116,104] 20 (List.replicate 20 0)).2.1
          = [47,104,111,109,101,47,117,115,101,114,61,100,97,116,97])
    ∧ ((kvParseBuffer true true
        [112,97,116,104,61,34,47,104,111,109,101,47,117,115,101,114,61,100,97,116,97]
        [112,97,116,104] 20 (List.replicate 20 0)).1 = 15
      ∧ cstr (kvParseBuffer true true
        [112,97,116,104,61,34,47,104,111,109,101,47,117,115,101,114,61,100,97,116,97]
        [112,97,116,104] 20 (List.replicate 20 0)).2.1
          = [47,104,111,109,101,47,117,115,101,114,61,100,97,116,97])
    ∧ ((kvParseBuffer true true
        [112,97,116,104,61,34,47,104,111,109,101,47,92,34,117,115,101,114,61,100,97,116,97,34]
        [112,97,116,104] 20 (List.replicate 20 0)).1 = 16
      ∧ cstr (kvParseBuffer true true
        [112,97,116,104,61,34,47,104,111,109,101,47,92,34,117,115,101,114,61,100,97,116,97,34]
        [112,97,116,104] 20 (List.replicate 20 0)).2.1
          = [47,104,111,109,101,47,34,117,115,101,114,61,100,97,116,97]) := by
  decide

set_option maxRecDepth 4000 in
/-- C1 counterexample: the claim says a value of exactly C - 1 bytes
succeeds and is returned whole.  With capacity C = 10 and the 9-byte
value `longvalue` (input `longkey=longvalue`), the code returns length 0
with an empty destination — the loop guard `i < (value_max - 1)` already
fails once `i` reaches C - 1, before the end of line is seen. -/
theorem claim_C1_counterexample :
    (kvParseBuffer true true
        [108,111,110,103,107,101,121,61,108,111,110,103,118,97,108,117,101]
        [108,111,110,103,107,101,121] 10 (List.replicate 10 0)).1 = 0
    ∧ cstr (kvParseBuffer true true
        [108,111,110,103,107,101,121,61,108,111,110,103,118,97,108,117,101]
        [108,111,110,103,107,101,121] 10 (List.replicate 10 0)).2.1 = []
    ∧ ¬ ((kvParseBuffer true true
        [108,111,110,103,107,101,121,61,108,111,110,103,118,97,108,117,101]
        [108,111,110,103,107,101,121] 10 (List.replicate 10 0)).1 = 9) := by
  decide

/-- C2 counterexample: the claim says every failing extraction leaves the
destination's first byte zero, in particular `check_section` on a line not
starting with `'['`.  On input `"a"` with a destination whose first byte
is 120, the missing-open-bracket path returns 0 without touching the
destination at all: the first byte is still 120. -/
theorem claim_C2_counterexample :
    (bufCheckSection [97] 1 [120]).1 = 0
    ∧ (bufCheckSection [97] 1 [120]).2.1 = [120]
    ∧ ¬ ((bufCheckSection [97] 1 [120]).2.1.headD 1 = 0) := by decide

/-- C3 counterexample: the claim requires only "no embedded NUL bytes",
but the byte `0xFF` (no NUL) already breaks the engines' agreement: the
stream engine stores `getc` in a `char`, so byte 255 compares equal to
EOF and `get_value` sees an immediate end of line (length 0), while the
buffer engine copies it (length 1). -/
theorem claim_C3_counterexample :
    ¬ ((sGetValue false false [255] 10 (List.replicate 10 0)).1
        = (bufGetValue false false [255] 10 (List.replicate 10 0)).1) := by decide

/-- C8 counterexample: the claim says a quote occurrence not immediately
preceded by a backslash in the input closes the value, including one
directly following an escaped quote, with later content ignored.  On the
line `k="a\""XYZ` (bytes `[107,61,34,97,92,34,34,88,89,90]`) the second
quote follows the escaped quote `\"`; since the code does not refresh
`prev` when consuming an escaped quote, that second quote is also treated
as escaped and the value never closes: the code returns length 5 with
content `a"XYZ`, not length 2 with `a"` and `XYZ` ignored. -/
theorem claim_C8_counterexample :
    (kvParseBuffer true true [107,61,34,97,92,34,34,88,89,90] [107] 10
        (List.replicate 10 0)).1 = 5
    ∧ cstr (kvParseBuffer true true [107,61,34,97,92,34,34,88,89,90] [107] 10
        (List.replicate 10 0)).2.1 = [97,34,88,89,90]
    ∧ ¬ ((kvParseBuffer true true [107,61,34,97,92,34,34,88,89,90] [107] 10
        (List.replicate 10 0)).1 = 2) := by decide

/-- C5: the caller-loop composition `kv_parse_buffer` returns the value of
the first line whose key matches and never examines later lines: when
`check_key` succeeds on the current line the loop returns that line's
`get_value` immediately.  In particular `x=1\nx=2\nx=3` with key `x`
yields `"1"` with length 1. -/
theorem claim_C5 :
    (∀ (ws qt : Bool) (s key : List Nat) (C : Nat) (buf v : List Nat),
      bufCheckKey ws s key = some v →
      kvParseBuffer ws qt s key C buf = bufGetValue ws qt v C buf)
    ∧ (kvParseBuffer true true [120,61,49,10,120,61,50,10,120,61,51] [120] 10
        (List.replicate 10 0)).1 = 1
    ∧ cstr (kvParseBuffer true true [120,61,49,10,120,61,50,10,120,61,51] [120] 10
        (List.replicate 10 0)).2.1 = [49] := by
  refine ⟨?_, by decide, by decide⟩
  intro ws qt s key C buf v hck
  show kvParseBufferAux ws qt key C buf (s.length + 2) s 0 = _
  rw [show s.length + 2 = (s.length + 1) + 1 from rfl]
  simp [kvParseBufferAux, bufNextLine, hck]

/-- C5 witness: on the single line `x=1` the key check succeeds and the
composition agrees with `get_value` at the value position. -/
theorem claim_C5_witness :
    bufCheckKey true [120,61,49] [120] = some [49]
    ∧ kvParseBuffer true true [120,61,49] [120] 10 (List.replicate 10 0)
        = bufGetValue true true [49] 10 (List.replicate 10 0) :=
  ⟨by decide, claim_C5.1 true true [120,61,49] [120] 10 (List.replicate 10 0) [49]
    (by decide)⟩

/-- C1 (amended): for a destination of capacity C (1 ≤ C < 2^64),
`get_value` fails — returning length 0 with an empty C string in the
destination — exactly when the copy loop would store C - 1 or more bytes
(excluding the terminator); below that bound the value (`valFinal`) is
returned whole, and no truncated partial value is ever produced.  The
stream engine behaves identically on inputs without NUL or 0xFF bytes. -/
theorem claim_C1 (ws qt : Bool) (s : List Nat) (C : Nat) (buf : List Nat)
    (hb : buf.length = C) (h1 : 1 ≤ C) (h2 : C < 2 ^ 64) :
    (C - 1 ≤ (valAcc qt (if ws then s.dropWhile isWs else s) 0 0 []).1.length →
      (bufGetValue ws qt s C buf).1 = 0
      ∧ cstr (bufGetValue ws qt s C buf).2.1 = []
      ∧ (bufGetValue ws qt s C buf).2.2 = false)
    ∧ ((valAcc qt (if ws then s.dropWhile isWs else s) 0 0 []).1.length < C - 1 →
      (bufGetValue ws qt s C buf).1 = (valFinal ws qt s).length
      ∧ cstr (bufGetValue ws qt s C buf).2.1 = valFinal ws qt s
      ∧ (bufGetValue ws qt s C buf).2.2 = false)
    ∧ (cleanBytes s →
      sGetValue ws qt s C buf
        = ((bufGetValue ws qt s C buf).1, (bufGetValue ws qt s C buf).2.1,
           (bufGetValue ws qt s C buf).2.2, s)) := by
  have hspec := bufGetValue_spec ws qt s C buf hb h1 h2
  exact ⟨fun h => ⟨(hspec.1 h).1, (hspec.1 h).2.1, (hspec.1 h).2.2.2⟩,
    fun h => ⟨(hspec.2 h).1, (hspec.2 h).2.1, (hspec.2 h).2.2.2⟩,
    fun hc => sGetValue_eq ws qt s C buf hc⟩

/-- C1 witness: the 2-byte value `ab` with capacity 4 (stored bytes 2 <
C - 1 = 3) succeeds whole; with capacity 3 (2 ≥ C - 1 = 2) it fails. -/
theorem claim_C1_witness :
    ((valAcc true ([97, 98].dropWhile isWs) 0 0 []).1.length < 4 - 1
      ∧ (bufGetValue true true [97, 98] 4 [0, 0, 0, 0]).1
          = (valFinal true true [97, 98]).length
      ∧ cstr (bufGetValue true true [97, 98] 4 [0, 0, 0, 0]).2.1
          = valFinal true true [97, 98])
    ∧ (3 - 1 ≤ (valAcc true ([97, 98].dropWhile isWs) 0 0 []).1.length
      ∧ (bufGetValue true true [97, 98] 3 [0, 0, 0]).1 = 0
      ∧ cstr (bufGetValue true true [97, 98] 3 [0, 0, 0]).2.1 = []) := by
  have h4 := claim_C1 true true [97, 98] 4 [0, 0, 0, 0] (by decide) (by decide)
    (by norm_num)
  have h3 := claim_C1 true true [97, 98] 3 [0, 0, 0] (by decide) (by decide)
    (by norm_num)
  refine ⟨⟨by decide, ?_, ?_⟩, ⟨by decide, ?_, ?_⟩⟩
  · exact (h4.2.1 (by decide)).1
  · exact (h4.2.1 (by decide)).2.1
  · exact (h3.1 (by decide)).1
  · exact (h3.1 (by decide)).2.1

/-- C2 (amended): every failing extraction leaves the caller-visible
cursor exactly where it was — the stream engine seeks back (modelled by
returning the saved suffix), the buffer engine never moves the caller's
pointer — and `get_value` returning 0 always leaves the destination's C
string empty, as does `check_section` failing after an opening bracket
(absent an out-of-bounds access); but `check_section` on a line whose
first byte is not `'['` returns 0 leaving the destination untouched, not
zeroed. -/
theorem claim_C2 :
    (∀ (s : List Nat) (C : Nat) (buf : List Nat),
      s.headD 0 ≠ 91 → bufCheckSection s C buf = (0, buf, false))
    ∧ (∀ (s : List Nat) (C : Nat) (buf : List Nat),
      (sCheckSection s C buf).2.2.2 = s)
    ∧ (∀ (ws qt : Bool) (s : List Nat) (C : Nat) (buf : List Nat),
      (sGetValue ws qt s C buf).2.2.2 = s)
    ∧ (∀ (ws qt : Bool) (s : List Nat) (C : Nat) (buf : List Nat),
      buf.length = C → 1 ≤ C → C < 2 ^ 64 →
      (bufGetValue ws qt s C buf).1 = 0 →
      cstr (bufGetValue ws qt s C buf).2.1 = [])
    ∧ (∀ (s : List Nat) (C : Nat) (buf : List Nat),
      0 < buf.length → s.headD 0 = 91 →
      (bufCheckSection s C buf).2.2 = false →
      (bufCheckSection s C buf).1 = 0 →
      (bufCheckSection s C buf).2.1.headD 1 = 0) := by
  refine ⟨?_, ?_, ?_, ?_, ?_⟩
  · intro s C buf h
    unfold bufCheckSection
    rw [if_pos h]
  · intro s C buf
    unfold sCheckSection
    split <;> rfl
  · intro ws qt s C buf
    rfl
  · intro ws qt s C buf hb h1 h2 hz
    have hspec := bufGetValue_spec ws qt s C buf hb h1 h2
    by_cases hge : C - 1 ≤ (valAcc qt (if ws then s.dropWhile isWs else s) 0 0 []).1.length
    · exact (hspec.1 hge).2.1
    · have hlt := hspec.2 (by omega)
      rw [hlt.2.1]
      have : (valFinal ws qt s).length = 0 := by rw [← hlt.1, hz]
      exact List.length_eq_zero.mp this
  · intro s C buf hlen h91 hoob hz
    unfold bufCheckSection at *
    rw [if_neg (by omega)] at *
    exact sectLoop_zero C s.tail 0 buf false hlen hoob hz

/-- C2 witness: on input `"[x"` with capacity 3, `check_section` fails
(no closing bracket) and zeroes the destination's first byte, and the
stream engine's cursor ends where it started; on `"a"` the missing-bracket
path leaves the destination untouched. -/
theorem claim_C2_witness :
    ((0 : Nat) < ([7, 7, 7] : List Nat).length
      ∧ (bufCheckSection [91, 120] 3 [7, 7, 7]).2.1.headD 1 = 0)
    ∧ (sCheckSection [91, 120] 3 [7, 7, 7]).2.2.2 = [91, 120]
    ∧ bufCheckSection [97] 3 [7, 7, 7] = (0, [7, 7, 7], false) :=
  ⟨⟨by decide, claim_C2.2.2.2.2 [91, 120] 3 [7, 7, 7] (by decide) (by decide)
      (by decide) (by decide)⟩,
   claim_C2.2.1 [91, 120] 3 [7, 7, 7],
   claim_C2.1 [97] 3 [7, 7, 7] (by decide)⟩

/-- C3 (amended): on inputs with no NUL byte and additionally no 0xFF
byte — `getc` results stored in a C `char` make byte 0xFF collide with
EOF in the stream engine — all four stream operations return the same
outcome and destination contents as the buffer operations on the same
text (cursor results are the corresponding suffixes; `get_value` and
`check_section` restore the stream cursor, returned as last component). -/
theorem claim_C3 (ws qt : Bool) (s key : List Nat) (n C : Nat) (buf : List Nat)
    (hs : cleanBytes s) (hk : ∀ k ∈ key, k < 256) :
    sNextLine s n = bufNextLine s n
    ∧ sCheckKey ws s key = bufCheckKey ws s key
    ∧ sGetValue ws qt s C buf
        = ((bufGetValue ws qt s C buf).1, (bufGetValue ws qt s C buf).2.1,
           (bufGetValue ws qt s C buf).2.2, s)
    ∧ sCheckSection s C buf
        = ((bufCheckSection s C buf).1, (bufCheckSection s C buf).2.1,
           (bufCheckSection s C buf).2.2, s) :=
  ⟨sNextLine_eq s n hs,
   sCheckKey_eq ws s key hs hk,
   sGetValue_eq ws qt s C buf hs,
   sCheckSection_eq s C buf
     (fun b hb => ⟨(hs b hb).1, by have := (hs b hb).2; omega⟩)⟩

/-- C3 witness: both engines agree on the clean two-line input
`a=b\nc=d` with key `a`. -/
theorem claim_C3_witness :
    cleanBytes [97, 61, 98, 10, 99, 61, 100]
    ∧ sNextLine [97, 61, 98, 10, 99, 61, 100] 1
        = bufNextLine [97, 61, 98, 10, 99, 61, 100] 1
    ∧ sCheckKey true [97, 61, 98, 10, 99, 61, 100] [97]
        = bufCheckKey true [97, 61, 98, 10, 99, 61, 100] [97] :=
  ⟨by unfold cleanBytes; decide,
   (claim_C3 true true [97, 61, 98, 10, 99, 61, 100] [97] 1 4 [0, 0, 0, 0]
     (by unfold cleanBytes; decide) (by decide)).1,
   (claim_C3 true true [97, 61, 98, 10, 99, 61, 100] [97] 1 4 [0, 0, 0, 0]
     (by unfold cleanBytes; decide) (by decide)).2.1⟩

/-- C7: `check_key` never accepts a proper-prefix match: if the full key
comparison succeeds but the next byte (after optional space/tab skipping)
is neither `'='` nor `':'`, the buffer engine reports no-match (NULL, so
the caller's line pointer is unchanged), and on clean bytes the stream
engine reports the same no-match (its failure path seeks back to the line
start). -/
theorem claim_C7 :
    (∀ (ws : Bool) (s key s2 : List Nat),
      keyCmp (if ws then s.dropWhile isWs else s) key = some s2 →
      (if ws then s2.dropWhile isWs else s2).headD 0 ≠ 61 →
      (if ws then s2.dropWhile isWs else s2).headD 0 ≠ 58 →
      bufCheckKey ws s key = none)
    ∧ (∀ (ws : Bool) (s key : List Nat), cleanBytes s → (∀ k ∈ key, k < 256) →
      bufCheckKey ws s key = none → sCheckKey ws s key = none) := by
  constructor
  · intro ws s key s2 hk h61 h58
    simp only [bufCheckKey, hk]
    rw [if_neg (by push_neg; exact ⟨h61, h58⟩)]
  · intro ws s key hc hk hnone
    rw [sCheckKey_eq ws s key hc hk]
    exact hnone

/-- C7 witness: key `key` on the line `keyX=1` matches as a prefix but is
followed by `X`, so both engines report no-match. -/
theorem claim_C7_witness :
    keyCmp [107, 101, 121, 88, 61, 49] [107, 101, 121] = some [88, 61, 49]
    ∧ bufCheckKey false [107, 101, 121, 88, 61, 49] [107, 101, 121] = none
    ∧ sCheckKey false [107, 101, 121, 88, 61, 49] [107, 101, 121] = none := by
  refine ⟨by decide, ?_, ?_⟩
  · exact claim_C7.1 false [107, 101, 121, 88, 61, 49] [107, 101, 121] [88, 61, 49]
      (by decide) (by decide) (by decide)
  · exact claim_C7.2 false [107, 101, 121, 88, 61, 49] [107, 101, 121]
      (by unfold cleanBytes; decide) (by decide)
      (claim_C7.1 false [107, 101, 121, 88, 61, 49] [107, 101, 121] [88, 61, 49]
        (by decide) (by decide) (by decide))

/-- In the open-quote state, a quote byte in hand with the recorded
previous byte not a backslash closes the value at once: terminator at
`i`, return `i`, regardless of what follows. -/
theorem gvCloseStep (ws : Bool) (vmax i q prev : Nat) (rest buf : List Nat)
    (oob : Bool) (hq : q = 34 ∨ q = 39) (hp : prev ≠ 92) :
    bufGetValueLoop ws true vmax (q :: rest) i q prev buf oob
      = if i < sizeSub1 vmax then
          (i, (bufWrite buf (i : Int) 0).1, oob || (bufWrite buf (i : Int) 0).2)
        else gvCapExit buf oob := by
  have hb : (prev != 92) = true := bne_iff_ne.mpr hp
  rcases hq with h | h <;> subst h <;>
    (simp only [bufGetValueLoop]
     by_cases hg : i < sizeSub1 vmax
     · rw [if_pos hg, if_pos hg]
       simp [isEol, hb]
     · rw [if_neg hg, if_neg hg]
       rfl)

/-- C8 (amended): once an opening quote is seen, the value closes at the
first occurrence of the quote character reached with the recorded
previous byte not a backslash — anything after that occurrence on the
line is never examined — and the opening quote itself is consumed without
being written.  The recorded byte is not refreshed when an escaped quote
is consumed, so it stays `\` and a quote directly following an escaped
quote is again treated as escaped (overwriting the previous byte), not as
a closer. -/
theorem claim_C8 :
    (∀ (ws : Bool) (vmax i q prev : Nat) (rest rest' buf : List Nat) (oob : Bool),
      (q = 34 ∨ q = 39) → prev ≠ 92 →
      bufGetValueLoop ws true vmax (q :: rest) i q prev buf oob
        = bufGetValueLoop ws true vmax (q :: rest') i q prev buf oob)
    ∧ (∀ (ws : Bool) (vmax i q prev : Nat) (rest buf : List Nat) (oob : Bool),
      i < sizeSub1 vmax → (q = 34 ∨ q = 39) → prev ≠ 92 →
      bufGetValueLoop ws true vmax (q :: rest) i q prev buf oob
        = (i, (bufWrite buf (i : Int) 0).1, oob || (bufWrite buf (i : Int) 0).2))
    ∧ (∀ (ws : Bool) (vmax i q : Nat) (rest buf : List Nat) (oob : Bool),
      i < sizeSub1 vmax → (q = 34 ∨ q = 39) →
      bufGetValueLoop ws true vmax (q :: rest) i q 92 buf oob
        = bufGetValueLoop ws true vmax rest i q 92
            (bufWrite buf ((i : Int) - 1) q).1
            (oob || (bufWrite buf ((i : Int) - 1) q).2))
    ∧ (∀ (ws : Bool) (vmax i q prev : Nat) (rest buf : List Nat) (oob : Bool),
      i < sizeSub1 vmax → (q = 34 ∨ q = 39) →
      bufGetValueLoop ws true vmax (q :: rest) i 0 prev buf oob
        = bufGetValueLoop ws true vmax rest i q prev buf oob) := by
  refine ⟨?_, ?_, ?_, ?_⟩
  · intro ws vmax i q prev rest rest' buf oob hq hp
    rw [gvCloseStep ws vmax i q prev rest buf oob hq hp,
      gvCloseStep ws vmax i q prev rest' buf oob hq hp]
  · intro ws vmax i q prev rest buf oob hg hq hp
    rw [gvCloseStep ws vmax i q prev rest buf oob hq hp, if_pos hg]
  · intro ws vmax i q rest buf oob hg hq
    rcases hq with h | h <;> subst h <;>
      (simp only [bufGetValueLoop]
       rw [if_pos hg]
       simp [isEol])
  · intro ws vmax i q prev rest buf oob hg hq
    rcases hq with h | h <;> subst h <;>
      (simp only [bufGetValueLoop]
       rw [if_pos hg]
       simp [isEol])

/-- C8 witness: at quote state `"` with previous byte `a`, the closing
quote ends the value at once whatever follows; with previous byte `\` the
same quote is consumed as escaped. -/
theorem claim_C8_witness :
    ((1 : Nat) < sizeSub1 10
      ∧ bufGetValueLoop true true 10 [34, 88, 89] 1 34 97 [0, 0, 0] false
          = bufGetValueLoop true true 10 [34, 90] 1 34 97 [0, 0, 0] false)
    ∧ bufGetValueLoop true true 10 [34, 88] 1 34 97 [0, 0, 0] false
        = (1, (bufWrite [0, 0, 0] (1 : Int) 0).1,
           false || (bufWrite [0, 0, 0] (1 : Int) 0).2)
    ∧ bufGetValueLoop true true 10 [34, 88] 1 34 92 [0, 92, 0] false
        = bufGetValueLoop true true 10 [88] 1 34 92
            (bufWrite [0, 92, 0] ((1 : Int) - 1) 34).1
            (false || (bufWrite [0, 92, 0] ((1 : Int) - 1) 34).2) :=
  ⟨⟨by decide, claim_C8.1 true 10 1 34 97 [88, 89] [90] [0, 0, 0] false
      (Or.inl rfl) (by decide)⟩,
   claim_C8.2.1 true 10 1 34 97 [88] [0, 0, 0] false (by decide) (Or.inl rfl)
     (by decide),
   claim_C8.2.2.1 true 10 1 34 [88] [0, 92, 0] false (by decide) (Or.inl rfl)⟩

theorem dropWhile_idem (p : Nat → Bool) (l : List Nat) :
    (l.dropWhile p).dropWhile p = l.dropWhile p := by
  induction l with
  | nil => rfl
  | cons a t ih =>
    rw [List.dropWhile_cons]
    split
    · exact ih
    · rw [List.dropWhile_cons]
      simp_all

/-- C10: `check_key` with the empty key reports a match exactly when the
first byte of the line (after optional space/tab skipping) is `'='` or
`':'`, leaving the cursor just after that delimiter; the empty key is
never rejected as invalid.  The stream engine agrees on clean bytes. -/
theorem claim_C10 :
    (∀ (ws : Bool) (s : List Nat),
      bufCheckKey ws s []
        = (if (if ws then s.dropWhile isWs else s).headD 0 = 61
              ∨ (if ws then s.dropWhile isWs else s).headD 0 = 58
           then some (if ws then s.dropWhile isWs else s).tail
           else none))
    ∧ (∀ (ws : Bool) (s : List Nat), cleanBytes s →
      sCheckKey ws s [] = bufCheckKey ws s []) := by
  constructor
  · intro ws s
    simp only [bufCheckKey, keyCmp]
    cases ws
    · rfl
    · simp only [if_true]
      rw [dropWhile_idem isWs s]
  · intro ws s hc
    exact sCheckKey_eq ws s [] hc (by simp)

/-- C10 witness: the empty key on the line `: v` (whitespace-skip on)
matches at the `':'` and leaves the cursor after it. -/
theorem claim_C10_witness :
    bufCheckKey true [32, 58, 118] []
      = (if ([32, 58, 118].dropWhile isWs).headD 0 = 61
            ∨ ([32, 58, 118].dropWhile isWs).headD 0 = 58
         then some ([32, 58, 118].dropWhile isWs).tail else none)
    ∧ sCheckKey true [32, 58, 118] [] = bufCheckKey true [32, 58, 118] [] := by
  refine ⟨?_, ?_⟩
  · have h := claim_C10.1 true [32, 58, 118]
    simpa using h
  · exact claim_C10.2 true [32, 58, 118] (by unfold cleanBytes; decide)
